import Mathlib

/-!
Shallow embedding of the rectangle-packing core of `gimpatlas.py`
(`CygonRectanglePacker` and the `nearest_pow2` helper), together with
theorems checking the specification's claims about it.

Coordinates and dimensions are natural numbers: the packer only ever
adds and compares them, so no overflow or negativity is involved.
-/

namespace GimpAtlas

/-- A height-slice breakpoint, mirroring class `Point` of the source:
`x` is the slice start, `y` the silhouette height from that x onward. -/
structure Point where
  x : Nat
  y : Nat
deriving DecidableEq

/-- State of `CygonRectanglePacker`: the fixed area bounds plus the
mutable `heightSlices` silhouette. -/
structure CygonRectanglePacker where
  packingAreaWidth : Nat
  packingAreaHeight : Nat
  heightSlices : List Point
deriving DecidableEq

/-- `CygonRectanglePacker.__init__`: the packing area starts as a single
slice of height 0. -/
def mkPacker (W H : Nat) : CygonRectanglePacker :=
  { packingAreaWidth := W, packingAreaHeight := H, heightSlices := [⟨0, 0⟩] }

/-- `bisect.bisect_left` on a list of `Point`s compared by their `x`
field (the `Point.__cmp__` of the source): on a sorted list it returns
the first index whose `x` is not smaller than the key. -/
def bisectLeft (a : List Point) (key : Nat) : Nat :=
  match a with
  | [] => 0
  | p :: rest => if p.x < key then bisectLeft rest key + 1 else 0

/-- The module-level `binary_search(a, x, lo, hi)` helper with `hi` left
at its default `len(a)`: returns the insertion position for the key and
whether the element at that position is an exact hit on the key. -/
def binary_search (a : List Point) (key : Nat) (lo : Nat) : Nat × Bool :=
  let pos := lo + bisectLeft (a.drop lo) key
  (pos, if pos < a.length then decide ((a.getD pos ⟨0, 0⟩).x = key) else false)

/-- The `highest` computation of `tryFindBestPlacement`: the height of
slice `l` maximised with the heights of slices `l+1 .. r-1`. -/
def highestIn (slices : List Point) (l r : Nat) : Nat :=
  ((slices.drop (l + 1)).take (r - (l + 1))).foldl
    (fun acc p => if p.y > acc then p.y else acc) ((slices.getD l ⟨0, 0⟩).y)

/-- The inner `while` of `tryFindBestPlacement` that advances
`rightSliceIndex` until the slice starting beyond the rectangle's right
end is reached; index `len` stands for the sentinel `packingAreaWidth`,
and the result `len + 1` means the rectangle left the packing area. -/
def advanceRight (W : Nat) (slices : List Point) (rre : Nat) (right : Nat) : Nat :=
  if h : right ≤ slices.length then
    let rightSliceStart := if right = slices.length then W else (slices.getD right ⟨0, 0⟩).x
    if rightSliceStart > rre then right
    else advanceRight W slices rre (right + 1)
  else right
termination_by slices.length + 1 - right
decreasing_by omega

/-- The main `while` of `tryFindBestPlacement`, sliding the window
`[left, right)` over the slices while tracking the best candidate seen
(`bestIdx`, its placement height `bestY`, and `bestScore`); returns the
final `bestIdx` and `bestY`. -/
def findLoop (W H : Nat) (slices : List Point) (w h : Nat)
    (left right : Nat) (bestIdx : Option Nat) (bestY bestScore : Nat) :
    Option Nat × Nat :=
  if hr : right ≤ slices.length then
    let highest := highestIn slices left right
    let st : Option Nat × Nat × Nat :=
      if highest + h < H then
        if highest < bestScore then (some left, highest, highest)
        else (bestIdx, bestY, bestScore)
      else (bestIdx, bestY, bestScore)
    if hl : left + 1 ≥ slices.length then (st.1, st.2.1)
    else
      let rre := (slices.getD (left + 1) ⟨0, 0⟩).x + w
      let right' := advanceRight W slices rre right
      if right' > slices.length then (st.1, st.2.1)
      else findLoop W H slices w h (left + 1) right' st.1 st.2.1 st.2.2
  else (bestIdx, bestY)
termination_by slices.length - left
decreasing_by omega

/-- `CygonRectanglePacker.tryFindBestPlacement`. -/
def tryFindBestPlacement (p : CygonRectanglePacker) (w h : Nat) : Option Point :=
  let right0 := bisectLeft p.heightSlices w
  match findLoop p.packingAreaWidth p.packingAreaHeight p.heightSlices w h 0 right0
      none 0 (p.packingAreaWidth * p.packingAreaHeight) with
  | (none, _) => none
  | (some i, y) => some ⟨(p.heightSlices.getD i ⟨0, 0⟩).x, y⟩

/-- `CygonRectanglePacker.integrateRectangle`, as a function from the
old slice list to the new one. -/
def integrateRectangle (W : Nat) (slices : List Point) (left width bottom : Nat) :
    List Point :=
  let sh := binary_search slices left 0
  let startSlice := sh.1
  let firstSliceOriginalHeight :=
    if sh.2 then (slices.getD startSlice ⟨0, 0⟩).y
    else (slices.getD (startSlice - 1) ⟨0, 0⟩).y
  let slices1 :=
    if sh.2 then slices.set startSlice ⟨left, bottom⟩
    else slices.insertIdx startSlice ⟨left, bottom⟩
  let right := left + width
  let startSlice1 := startSlice + 1
  if startSlice1 ≥ slices1.length then
    if right < W then slices1 ++ [⟨right, firstSliceOriginalHeight⟩] else slices1
  else
    let eh := binary_search slices1 right startSlice1
    let endSlice := eh.1
    if eh.2 then
      slices1.take startSlice1 ++ slices1.drop endSlice
    else
      let returnHeight :=
        if endSlice = startSlice1 then firstSliceOriginalHeight
        else (slices1.getD (endSlice - 1) ⟨0, 0⟩).y
      let slices2 := slices1.take startSlice1 ++ slices1.drop endSlice
      if right < W then slices2.insertIdx startSlice1 ⟨right, returnHeight⟩ else slices2

/-- `CygonRectanglePacker.TryPack`: the returned placement (if any)
together with the packer state after the call. -/
def TryPack (p : CygonRectanglePacker) (w h : Nat) :
    Option Point × CygonRectanglePacker :=
  if w > p.packingAreaWidth ∨ h > p.packingAreaHeight then (none, p)
  else
    match tryFindBestPlacement p w h with
    | none => (none, p)
    | some pt =>
      (some pt,
        { p with
          heightSlices :=
            integrateRectangle p.packingAreaWidth p.heightSlices pt.x w (pt.y + h) })

/-- An axis-aligned box committed by a successful `TryPack` call. -/
structure Box where
  x : Nat
  y : Nat
  w : Nat
  h : Nat
deriving DecidableEq

/-- Run a sequence of `TryPack` calls, collecting the boxes committed by
the successful ones. -/
def runPacker (p : CygonRectanglePacker) :
    List (Nat × Nat) → CygonRectanglePacker × List Box
  | [] => (p, [])
  | (w, h) :: rest =>
    match TryPack p w h with
    | (some pt, p') =>
      let r := runPacker p' rest
      (r.1, ⟨pt.x, pt.y, w, h⟩ :: r.2)
    | (none, p') =>
      runPacker p' rest

/-- `n & (n-1)`: `n` with its lowest set bit cleared. -/
def clearLowBit (n : Nat) : Nat := Nat.land n (n - 1)

/-- The `while m:` loop of `nearest_pow2`: repeatedly clear the lowest
set bit until a single bit remains. -/
def keepHighBit (n : Nat) : Nat :=
  if h : clearLowBit n = 0 then n else keepHighBit (clearLowBit n)
termination_by n
decreasing_by
  have h0 : n ≠ 0 := by
    intro hn
    exact h (by simp [hn, clearLowBit, Nat.land])
  have : clearLowBit n ≤ n - 1 := Nat.and_le_right
  omega

/-- The module-level `nearest_pow2` helper. -/
def nearest_pow2 (n : Nat) : Nat :=
  let m := Nat.land n (n - 1)
  if m = 0 then n
  else keepHighBit m <<< 1

/-! ## Semantic observers and well-formedness predicates -/

/-- Height of the silhouette at column `c`: the `y` of the last
breakpoint whose `x` does not exceed `c` (for a well-formed profile). -/
def profileHeight : List Point → Nat → Nat
  | [], _ => 0
  | [p], _ => p.y
  | p :: q :: rest, c => if c < q.x then p.y else profileHeight (q :: rest) c

/-- Breakpoint x-values are strictly increasing. -/
def sortedX (slices : List Point) : Prop :=
  slices.Pairwise (fun p q => p.x < q.x)

/-- Well-formedness of a profile for a `W` x `H` packing area: nonempty,
first breakpoint at x = 0, strictly increasing x-values, every x inside
the area width and every height within the area height. -/
def Inv (W H : Nat) (slices : List Point) : Prop :=
  slices ≠ [] ∧ (slices.headD ⟨0, 0⟩).x = 0 ∧ sortedX slices ∧
    ∀ p ∈ slices, p.x < W ∧ p.y ≤ H

/-- Height to which the silhouette returns just right of the rectangle:
the height of the last breakpoint strictly inside the rectangle's span,
or the overwritten slice's original height if there is none. -/
def returnHeightOf (firstOrig right : Nat) (T : List Point) : Nat :=
  ((T.takeWhile (fun p => p.x < right)).map Point.y).getLastD firstOrig

/-- What `integrateRectangle` does to the slices strictly after the
rectangle's start slice: drop the ones the rectangle covers and, unless
a breakpoint at exactly `right` survives or `right` reaches the area
width, start a new slice at `right` restoring the pre-rectangle
height. -/
def integTail (W firstOrig right : Nat) (T : List Point) : List Point :=
  match T.dropWhile (fun p => p.x < right) with
  | [] => if right < W then [⟨right, returnHeightOf firstOrig right T⟩] else []
  | q :: K' =>
    if q.x = right then q :: K'
    else if right < W then ⟨right, returnHeightOf firstOrig right T⟩ :: q :: K'
    else q :: K'

/-- Exclusive end of the window of slices the search examines for the
candidate starting at slice `i`: for `i = 0` the initial
`bisect_left(heightSlices, Point(rectangleWidth, 0))`, for later `i`
the first slice starting strictly beyond the rectangle's right end
(which the advance loop of the source also includes when it starts
exactly at the right end). -/
def wend (slices : List Point) (w i : Nat) : Nat :=
  if i = 0 then (slices.takeWhile (fun p => p.x < w)).length
  else (slices.takeWhile (fun p => p.x ≤ (slices.getD i ⟨0, 0⟩).x + w)).length

/-- The `highest` value the search computes for the candidate at slice
`i`. -/
def candVal (slices : List Point) (w i : Nat) : Nat :=
  highestIn slices i (wend slices w i)

/-- One candidate evaluation of the search loop, updating the best
candidate seen so far. -/
def candStep (H h : Nat) (slices : List Point) (w : Nat)
    (st : Option Nat × Nat × Nat) (i : Nat) : Option Nat × Nat × Nat :=
  let highest := candVal slices w i
  if highest + h < H then
    if highest < st.2.2 then (some i, highest, highest) else st
  else st

/-- The whole search as a left fold over the first `n` candidate
positions. -/
def runCands (W H : Nat) (slices : List Point) (w h n : Nat) :
    Option Nat × Nat × Nat :=
  (List.range n).foldl (candStep H h slices w) (none, 0, W * H)

/-- Index of the first slice (at or after index 1) whose candidate the
loop never evaluates because the rectangle's right end would reach the
area width; the loop evaluates exactly the candidates `0 ..< stopIdx`. -/
def stopIdx (W : Nat) (slices : List Point) (w : Nat) : Nat :=
  1 + ((slices.drop 1).takeWhile (fun p => p.x + w < W)).length

def bestOf (st : Option Nat × Nat × Nat) : Option Nat × Nat := (st.1, st.2.1)

/-- A point of the plane lying inside a committed box. -/
def inBox (b : Box) (px py : Nat) : Prop :=
  b.x ≤ px ∧ px < b.x + b.w ∧ b.y ≤ py ∧ py < b.y + b.h

/-- Start of the slice following slice `i` (the area width if `i` is
the last slice): the exclusive right end of slice i's span. -/
def nextX (s : List Point) (W i : Nat) : Nat :=
  if i + 1 < s.length then (s.getD (i + 1) ⟨0, 0⟩).x else W

/-! ## Bit-level lemmas for `nearest_pow2` (claim C9) -/

theorem land_two_mul_two_mul_add_one (a b : Nat) :
    Nat.land (2 * a) (2 * b + 1) = 2 * Nat.land a b := by
  show (2 * a) &&& (2 * b + 1) = 2 * (a &&& b)
  apply Nat.eq_of_testBit_eq
  intro i
  cases i with
  | zero =>
    simp [Nat.testBit_zero, Nat.testBit_land, Nat.mul_mod_right]
  | succ i =>
    have h1 : 2 * a / 2 = a := by omega
    have h2 : (2 * b + 1) / 2 = b := by omega
    have h3 : 2 * (a &&& b) / 2 = a &&& b := by omega
    rw [Nat.testBit_land, Nat.testBit_succ, Nat.testBit_succ, Nat.testBit_succ,
      h1, h2, h3, Nat.testBit_land]

theorem land_two_mul_add_one_two_mul (a b : Nat) :
    Nat.land (2 * a + 1) (2 * b) = 2 * Nat.land a b := by
  show (2 * a + 1) &&& (2 * b) = 2 * (a &&& b)
  apply Nat.eq_of_testBit_eq
  intro i
  cases i with
  | zero =>
    simp [Nat.testBit_zero, Nat.testBit_land, Nat.mul_mod_right]
  | succ i =>
    have h1 : 2 * b / 2 = b := by omega
    have h2 : (2 * a + 1) / 2 = a := by omega
    have h3 : 2 * (a &&& b) / 2 = a &&& b := by omega
    rw [Nat.testBit_land, Nat.testBit_succ, Nat.testBit_succ, Nat.testBit_succ,
      h2, h1, h3, Nat.testBit_land]

theorem clearLowBit_two_mul (x : Nat) : clearLowBit (2 * x) = 2 * clearLowBit x := by
  rcases Nat.eq_zero_or_pos x with h | h
  · subst h
    decide
  · unfold clearLowBit
    have he : 2 * x - 1 = 2 * (x - 1) + 1 := by omega
    rw [he, land_two_mul_two_mul_add_one]

theorem clearLowBit_odd (b : Nat) : clearLowBit (2 * b + 1) = 2 * b := by
  unfold clearLowBit
  have he : 2 * b + 1 - 1 = 2 * b := by omega
  rw [he, land_two_mul_add_one_two_mul]
  congr 1
  exact Nat.and_self b

theorem clearLowBit_pow2 (k : Nat) : clearLowBit (2 ^ k) = 0 := by
  induction k with
  | zero => decide
  | succ k ih =>
    rw [Nat.pow_succ, Nat.mul_comm, clearLowBit_two_mul, ih]

theorem clearLowBit_lt (n : Nat) (h0 : n ≠ 0) : clearLowBit n < n := by
  have h : clearLowBit n ≤ n - 1 := Nat.and_le_right
  omega

theorem log2_two_mul (m : Nat) (h : m ≠ 0) : Nat.log2 (2 * m) = Nat.log2 m + 1 := by
  simp only [Nat.log2_eq_log_two]
  rw [Nat.mul_comm, Nat.log_mul_base (by norm_num) h]

theorem eq_pow2_of_clearLowBit_eq_zero (n : Nat) (h0 : n ≠ 0) (h : clearLowBit n = 0) :
    n = 2 ^ Nat.log2 n := by
  induction n using Nat.strong_induction_on with
  | _ n ih =>
    rcases Nat.even_or_odd n with he | ho
    · obtain ⟨m, hm⟩ := he
      have hm2 : n = 2 * m := by omega
      have hmne : m ≠ 0 := by omega
      have hcl : clearLowBit m = 0 := by
        have := clearLowBit_two_mul m
        rw [← hm2] at this
        omega
      have hrec := ih m (by omega) hmne hcl
      rw [hm2, log2_two_mul m hmne, Nat.pow_succ, Nat.mul_comm]
      omega
    · obtain ⟨b, hb⟩ := ho
      subst hb
      rcases Nat.eq_zero_or_pos b with hb0 | hb1
      · subst hb0
        have hl : Nat.log2 (2 * 0 + 1) = 0 := by
          simp [Nat.log2_eq_log_two]
        rw [hl]
        norm_num
      · exfalso
        rw [clearLowBit_odd] at h
        omega

theorem log2_clearLowBit (n : Nat) (h0 : n ≠ 0) (h : clearLowBit n ≠ 0) :
    Nat.log2 (clearLowBit n) = Nat.log2 n := by
  induction n using Nat.strong_induction_on with
  | _ n ih =>
    rcases Nat.even_or_odd n with he | ho
    · obtain ⟨m, hm⟩ := he
      have hm2 : n = 2 * m := by omega
      have hmne : m ≠ 0 := by omega
      have hclm : clearLowBit m ≠ 0 := by
        intro hz
        rw [hm2, clearLowBit_two_mul, hz] at h
        omega
      rw [hm2, clearLowBit_two_mul, log2_two_mul _ hclm, ih m (by omega) hmne hclm,
        log2_two_mul m hmne]
    · obtain ⟨b, hb⟩ := ho
      subst hb
      have hbpos : 1 ≤ b := by
        rcases Nat.eq_zero_or_pos b with hb0 | hb1
        · exfalso
          subst hb0
          exact h (by decide)
        · exact hb1
      rw [clearLowBit_odd]
      apply Nat.le_antisymm
      · simp only [Nat.log2_eq_log_two]
        exact Nat.log_mono_right (by omega)
      · have hlog1 : 1 ≤ Nat.log2 (2 * b + 1) := by
          simp only [Nat.log2_eq_log_two]
          have hp : 2 ^ 1 ≤ 2 * b + 1 := by omega
          exact (Nat.pow_le_iff_le_log (by norm_num) (by omega)).1 hp
        have hple : 2 ^ Nat.log2 (2 * b + 1) ≤ 2 * b + 1 := Nat.log2_self_le (by omega)
        obtain ⟨m, hm'⟩ : ∃ m, 2 ^ Nat.log2 (2 * b + 1) = 2 * m :=
          ⟨2 ^ (Nat.log2 (2 * b + 1) - 1), by
            rw [← Nat.pow_succ']
            congr 1
            omega⟩
        have hle2b : 2 ^ Nat.log2 (2 * b + 1) ≤ 2 * b := by omega
        simp only [Nat.log2_eq_log_two] at hle2b ⊢
        exact (Nat.pow_le_iff_le_log (by norm_num) (by omega)).1 hle2b

theorem keepHighBit_eq (n : Nat) (h0 : n ≠ 0) : keepHighBit n = 2 ^ Nat.log2 n := by
  induction n using Nat.strong_induction_on with
  | _ n ih =>
    rw [keepHighBit]
    by_cases h : clearLowBit n = 0
    · rw [dif_pos h]
      exact eq_pow2_of_clearLowBit_eq_zero n h0 h
    · rw [dif_neg h]
      rw [ih _ (clearLowBit_lt n h0) h, log2_clearLowBit n h0 h]

/-- C9: for every n at least 1, `nearest_pow2 n` is the smallest power
of two greater than or equal to n; in particular it returns n itself
when n is a power of two. -/
theorem c9_nearest_pow2 (n : Nat) (h1 : 1 ≤ n) :
    (∃ k, nearest_pow2 n = 2 ^ k) ∧ n ≤ nearest_pow2 n ∧
    (∀ k, n ≤ 2 ^ k → nearest_pow2 n ≤ 2 ^ k) ∧
    (∀ k, n = 2 ^ k → nearest_pow2 n = n) := by
  by_cases hm : Nat.land n (n - 1) = 0
  · have hval : nearest_pow2 n = n := by
      unfold nearest_pow2
      simp [hm]
    refine ⟨⟨Nat.log2 n, ?_⟩, by omega, fun k hk => by omega, fun k hk => by omega⟩
    rw [hval]
    exact eq_pow2_of_clearLowBit_eq_zero n (by omega) hm
  · have hcl : clearLowBit n ≠ 0 := hm
    have hval : nearest_pow2 n = 2 ^ (Nat.log2 n + 1) := by
      unfold nearest_pow2
      simp only [if_neg hm]
      show keepHighBit (clearLowBit n) <<< 1 = 2 ^ (Nat.log2 n + 1)
      rw [keepHighBit_eq _ hcl, log2_clearLowBit n (by omega) hcl, Nat.shiftLeft_eq,
        Nat.pow_succ]
      ring
    have hub : n < 2 ^ (Nat.log2 n + 1) := Nat.lt_log2_self
    refine ⟨⟨Nat.log2 n + 1, hval⟩, by omega, fun k hk => ?_, fun k hk => ?_⟩
    · rw [hval]
      have hklog : Nat.log2 n + 1 ≤ k := by
        by_contra hcon
        have hkle : k ≤ Nat.log2 n := by omega
        have h2k : 2 ^ k ≤ 2 ^ Nat.log2 n := Nat.pow_le_pow_right (by norm_num) hkle
        have hself : 2 ^ Nat.log2 n ≤ n := Nat.log2_self_le (by omega)
        have hnk : n = 2 ^ k := by omega
        rw [hnk] at hcl
        exact hcl (clearLowBit_pow2 k)
      exact Nat.pow_le_pow_right (by norm_num) hklog
    · exfalso
      rw [hk] at hcl
      exact hcl (clearLowBit_pow2 k)

/-- Witness for C9 at n = 5: `nearest_pow2 5 = 8` is the least power of
two above 5. -/
theorem c9_nearest_pow2_witness :
    1 ≤ 5 ∧
    ((∃ k, nearest_pow2 5 = 2 ^ k) ∧ 5 ≤ nearest_pow2 5 ∧
      (∀ k, 5 ≤ 2 ^ k → nearest_pow2 5 ≤ 2 ^ k) ∧
      (∀ k, 5 = 2 ^ k → nearest_pow2 5 = 5)) :=
  ⟨by omega, c9_nearest_pow2 5 (by omega)⟩

/-! ## Easy claims: dimension rejection, atomicity, and the two scenarios -/

/-- C8: if the requested rectangle is wider or taller than the packing
area, `TryPack` rejects immediately, for any profile state, and leaves
the packer unchanged. -/
theorem c8_dimension_exceeds_area (p : CygonRectanglePacker) (w h : Nat)
    (hwh : w > p.packingAreaWidth ∨ h > p.packingAreaHeight) :
    TryPack p w h = (none, p) := by
  unfold TryPack
  simp [hwh]

/-- Witness for C8 at Scenario C's input: a fresh 4x4 packer rejects a
5x1 rectangle and keeps its initial single zero-height breakpoint. -/
theorem c8_dimension_exceeds_area_witness :
    TryPack (mkPacker 4 4) 5 1 = (none, mkPacker 4 4) :=
  c8_dimension_exceeds_area (mkPacker 4 4) 5 1 (Or.inl (by decide))

/-- C5: a `TryPack` call that returns no placement leaves the packer
state (in particular its `heightSlices` profile) unchanged. -/
theorem c5_failed_trypack_is_atomic (p : CygonRectanglePacker) (w h : Nat)
    (hfail : (TryPack p w h).1 = none) :
    (TryPack p w h).2 = p := by
  unfold TryPack at *
  by_cases hd : w > p.packingAreaWidth ∨ h > p.packingAreaHeight
  · simp [hd]
  · simp only [if_neg hd] at hfail ⊢
    cases hfind : tryFindBestPlacement p w h with
    | none => simp [hfind]
    | some pt => simp [hfind] at hfail

/-- Witness for C5: a failed call on a fresh 10x10 packer leaves it
unchanged. -/
theorem c5_failed_trypack_is_atomic_witness :
    (TryPack (mkPacker 10 10) 11 1).2 = mkPacker 10 10 :=
  c5_failed_trypack_is_atomic (mkPacker 10 10) 11 1 (by decide)

/-- Counterexample to C3 as stated: in Scenario B the second
`TryPack 10 5` call on the 10x10 area does not return placement (0, 5);
it fails, because the strict bound `highest + rectangleHeight <
packingAreaHeight` rejects a bottom edge landing exactly on the
boundary (5 + 5 = 10 is not < 10). -/
theorem c3_counterexample :
    ¬ ((TryPack (TryPack (mkPacker 10 10) 10 5).2 10 5).1 = some ⟨0, 5⟩) := by
  have h1 : TryPack (mkPacker 10 10) 10 5 =
      (some ⟨0, 0⟩, ⟨10, 10, [⟨0, 5⟩]⟩) := by
    simp [TryPack, tryFindBestPlacement, findLoop, advanceRight, highestIn, bisectLeft,
      integrateRectangle, binary_search, mkPacker]
  rw [h1]
  simp [TryPack, tryFindBestPlacement, findLoop, advanceRight, highestIn, bisectLeft,
    integrateRectangle, binary_search]

/-- C3 amended: on a fresh 10x10 packer, `TryPack 10 5` returns (0, 0)
and leaves the single breakpoint (0, 5); the second `TryPack 10 5`
returns no fit (its bottom edge would land exactly on the boundary and
the strict check rejects it), leaving the profile at (0, 5). -/
theorem c3_scenarioB :
    TryPack (mkPacker 10 10) 10 5 = (some ⟨0, 0⟩, ⟨10, 10, [⟨0, 5⟩]⟩) ∧
    TryPack ⟨10, 10, [⟨0, 5⟩]⟩ 10 5 = (none, ⟨10, 10, [⟨0, 5⟩]⟩) := by
  constructor
  · simp [TryPack, tryFindBestPlacement, findLoop, advanceRight, highestIn, bisectLeft,
      integrateRectangle, binary_search, mkPacker]
  · simp [TryPack, tryFindBestPlacement, findLoop, advanceRight, highestIn, bisectLeft,
      integrateRectangle, binary_search]

/-- Counterexample to C4 as stated: in Scenario A the third
`TryPack 4 3` call on the 10x10 area does not fail — the packer stacks
the third rectangle on top of the first one. -/
theorem c4_counterexample :
    ¬ ((TryPack (TryPack (TryPack (mkPacker 10 10) 4 3).2 4 3).2 4 3).1 = none) := by
  have h1 : TryPack (mkPacker 10 10) 4 3 =
      (some ⟨0, 0⟩, ⟨10, 10, [⟨0, 3⟩, ⟨4, 0⟩]⟩) := by
    simp [TryPack, tryFindBestPlacement, findLoop, advanceRight, highestIn, bisectLeft,
      integrateRectangle, binary_search, mkPacker]
  rw [h1]
  have h2 : TryPack (⟨10, 10, [⟨0, 3⟩, ⟨4, 0⟩]⟩ : CygonRectanglePacker) 4 3 =
      (some ⟨4, 0⟩, ⟨10, 10, [⟨0, 3⟩, ⟨4, 3⟩, ⟨8, 0⟩]⟩) := by
    simp [TryPack, tryFindBestPlacement, findLoop, advanceRight, highestIn, bisectLeft,
      integrateRectangle, binary_search]
  rw [h2]
  simp [TryPack, tryFindBestPlacement, findLoop, advanceRight, highestIn, bisectLeft,
    integrateRectangle, binary_search]

/-- C4 amended: on a fresh 10x10 packer three `TryPack 4 3` calls
return (0, 0), then (4, 0), then (0, 3) — the third call does not fail;
it places the rectangle on top of the first one, since a position at
x = 8 would exceed the area width but stacking is still possible. -/
theorem c4_scenarioA :
    TryPack (mkPacker 10 10) 4 3 = (some ⟨0, 0⟩, ⟨10, 10, [⟨0, 3⟩, ⟨4, 0⟩]⟩) ∧
    TryPack ⟨10, 10, [⟨0, 3⟩, ⟨4, 0⟩]⟩ 4 3 =
      (some ⟨4, 0⟩, ⟨10, 10, [⟨0, 3⟩, ⟨4, 3⟩, ⟨8, 0⟩]⟩) ∧
    TryPack ⟨10, 10, [⟨0, 3⟩, ⟨4, 3⟩, ⟨8, 0⟩]⟩ 4 3 =
      (some ⟨0, 3⟩, ⟨10, 10, [⟨0, 6⟩, ⟨4, 3⟩, ⟨8, 0⟩]⟩) := by
  refine ⟨?_, ?_, ?_⟩ <;>
    simp [TryPack, tryFindBestPlacement, findLoop, advanceRight, highestIn, bisectLeft,
      integrateRectangle, binary_search, mkPacker]


/-! ## Profile semantics, search characterization, and the remaining claims -/

/-! ## Semantic view of a profile: the height of each column -/

theorem inv_mkPacker (W H : Nat) (hW : 1 ≤ W) : Inv W H (mkPacker W H).heightSlices := by
  refine ⟨by simp [mkPacker], by simp [mkPacker], ?_, ?_⟩
  · simp [mkPacker, sortedX]
  · intro p hp
    simp [mkPacker] at hp
    simp [hp]
    omega

/-! ## Small list lemmas used throughout -/

theorem bisectLeft_eq_takeWhile (a : List Point) (key : Nat) :
    bisectLeft a key = (a.takeWhile (fun p => p.x < key)).length := by
  induction a with
  | nil => rfl
  | cons p rest ih =>
    by_cases h : p.x < key
    · simp [bisectLeft, List.takeWhile_cons, h, ih]
    · simp [bisectLeft, List.takeWhile_cons, h]

theorem takeWhile_prefix_all {pr : Point → Bool} {P : List Point} {x : Point}
    {T : List Point} (hP : ∀ a ∈ P, pr a = true) (hx : pr x = false) :
    (P ++ x :: T).takeWhile pr = P := by
  induction P with
  | nil => simp [List.takeWhile_cons, hx]
  | cons p P ih =>
    have hp : pr p = true := hP p (by simp)
    simp only [List.cons_append, List.takeWhile_cons, hp, if_true]
    rw [ih (fun a ha => hP a (by simp [ha]))]

theorem dropWhile_prefix_all {pr : Point → Bool} {P : List Point} {x : Point}
    {T : List Point} (hP : ∀ a ∈ P, pr a = true) (hx : pr x = false) :
    (P ++ x :: T).dropWhile pr = x :: T := by
  induction P with
  | nil => simp [List.dropWhile_cons, hx]
  | cons p P ih =>
    have hp : pr p = true := hP p (by simp)
    simp only [List.cons_append, List.dropWhile_cons, hp, if_true]
    exact ih (fun a ha => hP a (by simp [ha]))

theorem getD_append_length (P : List Point) (x : Point) (T : List Point) (d : Point) :
    (P ++ x :: T).getD P.length d = x := by
  induction P with
  | nil => rfl
  | cons p P ih => simpa using ih

theorem getD_append_headD (A K : List Point) (d : Point) :
    (A ++ K).getD A.length d = K.headD d := by
  induction A with
  | nil => cases K <;> rfl
  | cons a A ih => simpa using ih

theorem set_append_length (P : List Point) (x q : Point) (T : List Point) :
    (P ++ x :: T).set P.length q = P ++ q :: T := by
  induction P with
  | nil => rfl
  | cons p P ih => simpa using ih

theorem insertIdx_append_length (P T : List Point) (q : Point) :
    (P ++ T).insertIdx P.length q = P ++ q :: T := by
  induction P with
  | nil => rfl
  | cons p P ih => simpa [List.insertIdx] using ih

theorem take_append_length_succ (P : List Point) (x : Point) (T : List Point) :
    (P ++ x :: T).take (P.length + 1) = P ++ [x] := by
  induction P with
  | nil => rfl
  | cons p P ih => simpa using ih

theorem drop_append_length_succ (P : List Point) (x : Point) (T : List Point) (k : Nat) :
    (P ++ x :: T).drop (P.length + 1 + k) = T.drop k := by
  induction P with
  | nil =>
    show List.drop (0 + 1 + k) (x :: T) = T.drop k
    have h1 : 0 + 1 + k = k + 1 := by omega
    rw [h1]
    rfl
  | cons p P ih =>
    show List.drop ((p :: P).length + 1 + k) (p :: (P ++ x :: T)) = T.drop k
    have hlen : (p :: P).length + 1 + k = (P.length + 1 + k) + 1 := by
      simp
      omega
    rw [hlen]
    simpa using ih

theorem dropWhile_eq_drop_takeWhile (pr : Point → Bool) (l : List Point) :
    l.dropWhile pr = l.drop (l.takeWhile pr).length := by
  induction l with
  | nil => rfl
  | cons p l ih =>
    by_cases h : pr p
    · simp [List.dropWhile_cons, List.takeWhile_cons, h, ih]
    · simp [List.dropWhile_cons, List.takeWhile_cons, h]

theorem getD_eq_getElem (l : List Point) (i : Nat) (d : Point) (h : i < l.length) :
    l.getD i d = l[i] := by
  simp [List.getD_eq_getElem?_getD, List.getElem?_eq_getElem h]

theorem getD_append_cons_right (P : List Point) (b : Point) (T : List Point)
    (k : Nat) (d : Point) :
    (P ++ b :: T).getD (P.length + 1 + k) d = T.getD k d := by
  induction P with
  | nil =>
    show (b :: T).getD (0 + 1 + k) d = T.getD k d
    have h1 : 0 + 1 + k = k + 1 := by omega
    rw [h1]
    rfl
  | cons p P ih =>
    show (p :: (P ++ b :: T)).getD ((p :: P).length + 1 + k) d = T.getD k d
    have hlen : (p :: P).length + 1 + k = (P.length + 1 + k) + 1 := by
      simp
      omega
    rw [hlen]
    simpa using ih

theorem getD_last (A : List Point) (h : A ≠ []) (d : Point) :
    A.getD (A.length - 1) d = A.getLastD d := by
  induction A with
  | nil => simp at h
  | cons a A ih =>
    cases A with
    | nil => rfl
    | cons b B =>
      have hne : b :: B ≠ [] := by simp
      have := ih hne
      show (a :: b :: B).getD ((b :: B).length + 1 - 1) d = (a :: b :: B).getLastD d
      have hl : (b :: B).length + 1 - 1 = ((b :: B).length - 1) + 1 := by
        simp
      rw [hl]
      simpa using this

theorem getLastD_map_y (A : List Point) (hA : A ≠ []) (z : Nat) (d : Point) :
    (A.map Point.y).getLastD z = (A.getLastD d).y := by
  induction A with
  | nil => simp at hA
  | cons a A ih =>
    cases A with
    | nil => rfl
    | cons b B => simpa using ih (by simp)

/-! ## Structural characterization of `integrateRectangle` -/

theorem integrate_eq_hit (W : Nat) (P : List Point) (t : Point) (T : List Point)
    (width bottom : Nat)
    (hP : ∀ p ∈ P, p.x < t.x) (hT : ∀ p ∈ T, t.x < p.x) :
    integrateRectangle W (P ++ t :: T) t.x width bottom =
      P ++ ⟨t.x, bottom⟩ :: integTail W t.y (t.x + width) T := by
  have hbis : bisectLeft (P ++ t :: T) t.x = P.length := by
    rw [bisectLeft_eq_takeWhile,
      @takeWhile_prefix_all (fun p => decide (p.x < t.x)) _ _ _
        (fun a ha => by simpa using hP a ha) (by simp)]
  have hlen : (P ++ t :: T).length = P.length + 1 + T.length := by
    simp
    omega
  have hsearch : binary_search (P ++ t :: T) t.x 0 = (P.length, true) := by
    unfold binary_search
    simp only [List.drop_zero, hbis, Nat.zero_add]
    have hplt : P.length < (P ++ t :: T).length := by
      rw [hlen]
      omega
    rw [if_pos hplt, getD_append_length]
    simp
  have hset : (P ++ t :: T).set P.length ⟨t.x, bottom⟩ = P ++ ⟨t.x, bottom⟩ :: T :=
    set_append_length P t ⟨t.x, bottom⟩ T
  have hgetD : (P ++ t :: T).getD P.length ⟨0, 0⟩ = t := getD_append_length P t T ⟨0, 0⟩
  unfold integrateRectangle
  rw [hsearch]
  simp only [hgetD, hset, eq_self_iff_true, if_true]
  cases T with
  | nil =>
    have hl1 : (P ++ [(⟨t.x, bottom⟩ : Point)]).length = P.length + 1 := by simp
    rw [if_pos (by rw [hl1])]
    show (if t.x + width < W then
        (P ++ [⟨t.x, bottom⟩]) ++ [⟨t.x + width, t.y⟩] else P ++ [⟨t.x, bottom⟩]) =
      P ++ ⟨t.x, bottom⟩ :: integTail W t.y (t.x + width) []
    have htail : integTail W t.y (t.x + width) [] =
        if t.x + width < W then [⟨t.x + width, t.y⟩] else [] := by
      unfold integTail returnHeightOf
      simp
    rw [htail]
    by_cases hrW : t.x + width < W
    · simp [hrW]
    · simp [hrW]
  | cons u T' =>
    set T := u :: T' with hTdef
    set b : Point := ⟨t.x, bottom⟩ with hbdef
    have hlen1 : (P ++ b :: T).length = P.length + 1 + T.length := by
      simp
      omega
    have hTne : T ≠ [] := by simp [hTdef]
    have hT1 : T.length = T'.length + 1 := by rw [hTdef]; rfl
    rw [if_neg (by rw [hlen1]; omega)]
    set right := t.x + width with hrdef
    set A := T.takeWhile (fun p => p.x < right) with hAdef
    set K := T.dropWhile (fun p => p.x < right) with hKdef
    have hAK : A ++ K = T := by
      rw [hAdef, hKdef]
      exact List.takeWhile_append_dropWhile _ _
    have hdrop1 : (P ++ b :: T).drop (P.length + 1) = T := by
      have := drop_append_length_succ P b T 0
      simpa using this
    have hbis2 : binary_search (P ++ b :: T) right (P.length + 1) =
        (P.length + 1 + A.length,
          if P.length + 1 + A.length < (P ++ b :: T).length then
            decide (((P ++ b :: T).getD (P.length + 1 + A.length) ⟨0, 0⟩).x = right)
          else false) := by
      unfold binary_search
      rw [hdrop1, bisectLeft_eq_takeWhile, ← hAdef]
    have hsplit : P ++ b :: T = (P ++ b :: A) ++ K := by
      rw [← hAK]
      simp
    have hgetend : (P ++ b :: T).getD (P.length + 1 + A.length) ⟨0, 0⟩ = K.headD ⟨0, 0⟩ := by
      rw [hsplit]
      have hl2 : (P ++ b :: A).length = P.length + 1 + A.length := by
        simp
        omega
      rw [← hl2, getD_append_headD]
    have htake : (P ++ b :: T).take (P.length + 1) = P ++ [b] :=
      take_append_length_succ P b T
    have hdropend : (P ++ b :: T).drop (P.length + 1 + A.length) = K := by
      rw [drop_append_length_succ, hKdef, dropWhile_eq_drop_takeWhile, ← hAdef]
    cases hKc : K with
    | nil =>
      have hAT : A.length = T.length := by
        have := congrArg List.length hAK
        simp [hKc] at this
        simpa using this
      have hAne : A ≠ [] := by
        intro hA0
        rw [hA0] at hAT
        simp at hAT
        exact hTne (List.eq_nil_of_length_eq_zero hAT.symm)
      rw [hbis2]
      have hcond : ¬ (P.length + 1 + A.length < (P ++ b :: T).length) := by
        rw [hlen1]
        omega
      rw [if_neg hcond]
      rw [if_neg Bool.false_ne_true]
      have hretidx : P.length + 1 + A.length - 1 = P.length + 1 + (A.length - 1) := by
        have : 1 ≤ A.length := List.length_pos.2 hAne
        omega
      have hne0 : ¬ (P.length + 1 + A.length = P.length + 1) := by
        have : 1 ≤ A.length := List.length_pos.2 hAne
        omega
      rw [if_neg hne0]
      have hretval : (P ++ b :: T).getD (P.length + 1 + A.length - 1) ⟨0, 0⟩ =
          A.getLastD ⟨0, 0⟩ := by
        rw [hretidx, getD_append_cons_right]
        have : A.getD (A.length - 1) ⟨0, 0⟩ = A.getLastD ⟨0, 0⟩ := getD_last A hAne ⟨0, 0⟩
        rw [← this]
        congr 1
        rw [← hAK, hKc, List.append_nil]
      have hrh : (A.getLastD ⟨0, 0⟩).y = returnHeightOf t.y right T := by
        unfold returnHeightOf
        rw [← hAdef, getLastD_map_y A hAne t.y ⟨0, 0⟩]
      have hs2 : (P ++ b :: T).take (P.length + 1) ++ (P ++ b :: T).drop (P.length + 1 + A.length) =
          P ++ [b] := by
        rw [htake, hdropend, hKc, List.append_nil]
      rw [hs2, hretval, hrh]
      have htail : integTail W t.y right T = if right < W then
          [⟨right, returnHeightOf t.y right T⟩] else [] := by
        unfold integTail
        rw [← hKdef, hKc]
      rw [htail]
      by_cases hrW : right < W
      · rw [if_pos hrW, if_pos hrW]
        have : (P ++ [b]).insertIdx (P.length + 1) ⟨right, returnHeightOf t.y right T⟩ =
            P ++ [b] ++ [⟨right, returnHeightOf t.y right T⟩] := by
          have hl3 : (P ++ [b]).length = P.length + 1 := by simp
          rw [← hl3]
          have := insertIdx_append_length (P ++ [b]) [] ⟨right, returnHeightOf t.y right T⟩
          simpa using this
        rw [this]
        all_goals simp
      · rw [if_neg hrW, if_neg hrW]
        all_goals simp
    | cons q K' =>
      have hAT : A.length < T.length := by
        have := congrArg List.length hAK
        simp [hKc] at this
        omega
      rw [hbis2]
      have hcond : P.length + 1 + A.length < (P ++ b :: T).length := by
        rw [hlen1]
        omega
      rw [if_pos hcond]
      rw [hgetend, hKc]
      simp only [List.headD_cons]
      by_cases hq : q.x = right
      · rw [if_pos (by simp [hq])]
        rw [htake, hdropend, hKc]
        have htail : integTail W t.y right T = q :: K' := by
          unfold integTail
          rw [← hKdef, hKc]
          show (if q.x = right then q :: K'
              else if right < W then ⟨right, returnHeightOf t.y right T⟩ :: q :: K'
              else q :: K') = q :: K'
          rw [if_pos hq]
        rw [htail]
        all_goals simp
      · rw [if_neg (by simp [hq])]
        have hs2 : (P ++ b :: T).take (P.length + 1) ++ (P ++ b :: T).drop (P.length + 1 + A.length) =
            P ++ b :: K := by
          rw [htake, hdropend]
          simp [hKc]
        by_cases hA0 : A.length = 0
        · have hAnil : A = [] := List.eq_nil_of_length_eq_zero hA0
          have hend0 : P.length + 1 + A.length = P.length + 1 := by omega
          rw [if_pos hend0]
          rw [hs2, hKc]
          have hrh : returnHeightOf t.y right T = t.y := by
            unfold returnHeightOf
            rw [← hAdef, hAnil]
            rfl
          have htail : integTail W t.y right T =
              if right < W then ⟨right, returnHeightOf t.y right T⟩ :: q :: K'
              else q :: K' := by
            unfold integTail
            rw [← hKdef, hKc]
            show (if q.x = right then q :: K'
                else if right < W then ⟨right, returnHeightOf t.y right T⟩ :: q :: K'
                else q :: K') =
              if right < W then ⟨right, returnHeightOf t.y right T⟩ :: q :: K' else q :: K'
            rw [if_neg hq]
          rw [htail, hrh]
          by_cases hrW : right < W
          · rw [if_pos hrW, if_pos hrW]
            have : (P ++ b :: (q :: K')).insertIdx (P.length + 1) ⟨right, t.y⟩ =
                P ++ [b] ++ ⟨right, t.y⟩ :: q :: K' := by
              have hl3 : (P ++ [b]).length = P.length + 1 := by simp
              have heq : P ++ b :: (q :: K') = (P ++ [b]) ++ (q :: K') := by simp
              rw [heq, ← hl3, insertIdx_append_length]
            rw [this]
            all_goals simp
          · rw [if_neg hrW, if_neg hrW]
            all_goals simp
        · have hAne : A ≠ [] := by
            intro h0
            rw [h0] at hA0
            simp at hA0
          have hendne : ¬ (P.length + 1 + A.length = P.length + 1) := by omega
          rw [if_neg hendne]
          have hretidx : P.length + 1 + A.length - 1 = P.length + 1 + (A.length - 1) := by
            omega
          have hretval : (P ++ b :: T).getD (P.length + 1 + A.length - 1) ⟨0, 0⟩ =
              A.getLastD ⟨0, 0⟩ := by
            rw [hretidx, getD_append_cons_right]
            have hgl : A.getD (A.length - 1) ⟨0, 0⟩ = A.getLastD ⟨0, 0⟩ := getD_last A hAne ⟨0, 0⟩
            rw [← hgl]
            have hlt : A.length - 1 < A.length := by
              have : 1 ≤ A.length := List.length_pos.2 hAne
              omega
            rw [← hAK]
            rw [getD_eq_getElem _ _ _ (by simp; omega), getD_eq_getElem _ _ _ hlt]
            exact List.getElem_append_left hlt
          have hrh : (A.getLastD ⟨0, 0⟩).y = returnHeightOf t.y right T := by
            unfold returnHeightOf
            rw [← hAdef, getLastD_map_y A hAne t.y ⟨0, 0⟩]
          rw [hretval, hrh, hs2, hKc]
          have htail : integTail W t.y right T =
              if right < W then ⟨right, returnHeightOf t.y right T⟩ :: q :: K'
              else q :: K' := by
            unfold integTail
            rw [← hKdef, hKc]
            show (if q.x = right then q :: K'
                else if right < W then ⟨right, returnHeightOf t.y right T⟩ :: q :: K'
                else q :: K') =
              if right < W then ⟨right, returnHeightOf t.y right T⟩ :: q :: K' else q :: K'
            rw [if_neg hq]
          rw [htail]
          by_cases hrW : right < W
          · rw [if_pos hrW, if_pos hrW]
            have : (P ++ b :: (q :: K')).insertIdx (P.length + 1) ⟨right, returnHeightOf t.y right T⟩ =
                P ++ [b] ++ ⟨right, returnHeightOf t.y right T⟩ :: q :: K' := by
              have hl3 : (P ++ [b]).length = P.length + 1 := by simp
              have heq : P ++ b :: (q :: K') = (P ++ [b]) ++ (q :: K') := by simp
              rw [heq, ← hl3, insertIdx_append_length]
            rw [this]
            all_goals simp
          · rw [if_neg hrW, if_neg hrW]
            all_goals simp

theorem takeWhile_all {pr : Point → Bool} {P : List Point}
    (hP : ∀ a ∈ P, pr a = true) : P.takeWhile pr = P := by
  induction P with
  | nil => rfl
  | cons p P ih =>
    have hp : pr p = true := hP p (by simp)
    simp only [List.takeWhile_cons, hp, if_true]
    rw [ih (fun a ha => hP a (by simp [ha]))]

theorem integrate_eq_miss (W : Nat) (P : List Point) (T : List Point)
    (left width bottom : Nat)
    (hPne : P ≠ []) (hP : ∀ p ∈ P, p.x < left) (hT : ∀ p ∈ T, left < p.x) :
    integrateRectangle W (P ++ T) left width bottom =
      P ++ ⟨left, bottom⟩ :: integTail W (P.getLastD ⟨0, 0⟩).y (left + width) T := by
  have hbis : bisectLeft (P ++ T) left = P.length := by
    rw [bisectLeft_eq_takeWhile]
    cases T with
    | nil =>
      rw [List.append_nil, takeWhile_all (fun a ha => by simpa using hP a ha)]
    | cons u T' =>
      rw [@takeWhile_prefix_all (fun p => decide (p.x < left)) _ _ _
        (fun a ha => by simpa using hP a ha)
        (by simp; exact Nat.le_of_lt (hT u (by simp)))]
  have hsearch : binary_search (P ++ T) left 0 = (P.length, false) := by
    unfold binary_search
    simp only [List.drop_zero, hbis, Nat.zero_add]
    cases T with
    | nil =>
      rw [if_neg (by simp)]
    | cons u T' =>
      have hplt : P.length < (P ++ u :: T').length := by simp
      rw [if_pos hplt, getD_append_length]
      simp only [Prod.mk.injEq, true_and]
      have := hT u (by simp)
      simp
      omega
  have hfo : (P ++ T).getD (P.length - 1) ⟨0, 0⟩ = P.getLastD ⟨0, 0⟩ := by
    have h1 : 1 ≤ P.length := List.length_pos.2 hPne
    have hlt : P.length - 1 < P.length := by omega
    rw [getD_eq_getElem _ _ _ (by simp; omega), ← getD_last P hPne ⟨0, 0⟩,
      getD_eq_getElem _ _ _ hlt]
    exact List.getElem_append_left hlt
  have hins : (P ++ T).insertIdx P.length ⟨left, bottom⟩ = P ++ ⟨left, bottom⟩ :: T :=
    insertIdx_append_length P T ⟨left, bottom⟩
  unfold integrateRectangle
  rw [hsearch]
  simp only [Bool.false_eq_true, if_false, hfo, hins]
  set b : Point := ⟨left, bottom⟩ with hbdef
  set fo := (P.getLastD ⟨0, 0⟩).y with hfodef
  set right := left + width with hrdef
  cases T with
  | nil =>
    have hl1 : (P ++ [b]).length = P.length + 1 := by simp
    rw [if_pos (by rw [hl1])]
    have htail : integTail W fo right [] =
        if right < W then [⟨right, fo⟩] else [] := by
      unfold integTail returnHeightOf
      simp
    rw [htail]
    by_cases hrW : right < W
    · rw [if_pos hrW, if_pos hrW]
      all_goals simp
    · rw [if_neg hrW, if_neg hrW]
      all_goals simp
  | cons u T' =>
    set T := u :: T' with hTdef
    have hlen1 : (P ++ b :: T).length = P.length + 1 + T.length := by
      simp
      omega
    have hTne : T ≠ [] := by simp [hTdef]
    have hT1 : T.length = T'.length + 1 := by rw [hTdef]; rfl
    rw [if_neg (by rw [hlen1]; omega)]
    set A := T.takeWhile (fun p => p.x < right) with hAdef
    set K := T.dropWhile (fun p => p.x < right) with hKdef
    have hAK : A ++ K = T := by
      rw [hAdef, hKdef]
      exact List.takeWhile_append_dropWhile _ _
    have hdrop1 : (P ++ b :: T).drop (P.length + 1) = T := by
      have := drop_append_length_succ P b T 0
      simpa using this
    have hbis2 : binary_search (P ++ b :: T) right (P.length + 1) =
        (P.length + 1 + A.length,
          if P.length + 1 + A.length < (P ++ b :: T).length then
            decide (((P ++ b :: T).getD (P.length + 1 + A.length) ⟨0, 0⟩).x = right)
          else false) := by
      unfold binary_search
      rw [hdrop1, bisectLeft_eq_takeWhile, ← hAdef]
    have hsplit : P ++ b :: T = (P ++ b :: A) ++ K := by
      rw [← hAK]
      simp
    have hgetend : (P ++ b :: T).getD (P.length + 1 + A.length) ⟨0, 0⟩ = K.headD ⟨0, 0⟩ := by
      rw [hsplit]
      have hl2 : (P ++ b :: A).length = P.length + 1 + A.length := by
        simp
        omega
      rw [← hl2, getD_append_headD]
    have htake : (P ++ b :: T).take (P.length + 1) = P ++ [b] :=
      take_append_length_succ P b T
    have hdropend : (P ++ b :: T).drop (P.length + 1 + A.length) = K := by
      rw [drop_append_length_succ, hKdef, dropWhile_eq_drop_takeWhile, ← hAdef]
    cases hKc : K with
    | nil =>
      have hAT : A.length = T.length := by
        have := congrArg List.length hAK
        simp [hKc] at this
        simpa using this
      have hAne : A ≠ [] := by
        intro hA0
        rw [hA0] at hAT
        simp at hAT
        exact hTne (List.eq_nil_of_length_eq_zero hAT.symm)
      rw [hbis2]
      have hcond : ¬ (P.length + 1 + A.length < (P ++ b :: T).length) := by
        rw [hlen1]
        omega
      rw [if_neg hcond]
      rw [if_neg Bool.false_ne_true]
      have hretidx : P.length + 1 + A.length - 1 = P.length + 1 + (A.length - 1) := by
        have : 1 ≤ A.length := List.length_pos.2 hAne
        omega
      have hne0 : ¬ (P.length + 1 + A.length = P.length + 1) := by
        have : 1 ≤ A.length := List.length_pos.2 hAne
        omega
      rw [if_neg hne0]
      have hretval : (P ++ b :: T).getD (P.length + 1 + A.length - 1) ⟨0, 0⟩ =
          A.getLastD ⟨0, 0⟩ := by
        rw [hretidx, getD_append_cons_right]
        have : A.getD (A.length - 1) ⟨0, 0⟩ = A.getLastD ⟨0, 0⟩ := getD_last A hAne ⟨0, 0⟩
        rw [← this]
        congr 1
        rw [← hAK, hKc, List.append_nil]
      have hrh : (A.getLastD ⟨0, 0⟩).y = returnHeightOf fo right T := by
        unfold returnHeightOf
        rw [← hAdef, getLastD_map_y A hAne fo ⟨0, 0⟩]
      have hs2 : (P ++ b :: T).take (P.length + 1) ++ (P ++ b :: T).drop (P.length + 1 + A.length) =
          P ++ [b] := by
        rw [htake, hdropend, hKc, List.append_nil]
      rw [hs2, hretval, hrh]
      have htail : integTail W fo right T = if right < W then
          [⟨right, returnHeightOf fo right T⟩] else [] := by
        unfold integTail
        rw [← hKdef, hKc]
      rw [htail]
      by_cases hrW : right < W
      · rw [if_pos hrW, if_pos hrW]
        have : (P ++ [b]).insertIdx (P.length + 1) ⟨right, returnHeightOf fo right T⟩ =
            P ++ [b] ++ [⟨right, returnHeightOf fo right T⟩] := by
          have hl3 : (P ++ [b]).length = P.length + 1 := by simp
          rw [← hl3]
          have := insertIdx_append_length (P ++ [b]) [] ⟨right, returnHeightOf fo right T⟩
          simpa using this
        rw [this]
        all_goals simp
      · rw [if_neg hrW, if_neg hrW]
        all_goals simp
    | cons q K' =>
      have hAT : A.length < T.length := by
        have := congrArg List.length hAK
        simp [hKc] at this
        omega
      rw [hbis2]
      have hcond : P.length + 1 + A.length < (P ++ b :: T).length := by
        rw [hlen1]
        omega
      rw [if_pos hcond]
      rw [hgetend, hKc]
      simp only [List.headD_cons]
      by_cases hq : q.x = right
      · rw [if_pos (by simp [hq])]
        rw [htake, hdropend, hKc]
        have htail : integTail W fo right T = q :: K' := by
          unfold integTail
          rw [← hKdef, hKc]
          show (if q.x = right then q :: K'
              else if right < W then ⟨right, returnHeightOf fo right T⟩ :: q :: K'
              else q :: K') = q :: K'
          rw [if_pos hq]
        rw [htail]
        all_goals simp
      · rw [if_neg (by simp [hq])]
        have hs2 : (P ++ b :: T).take (P.length + 1) ++ (P ++ b :: T).drop (P.length + 1 + A.length) =
            P ++ b :: K := by
          rw [htake, hdropend]
          simp [hKc]
        by_cases hA0 : A.length = 0
        · have hAnil : A = [] := List.eq_nil_of_length_eq_zero hA0
          have hend0 : P.length + 1 + A.length = P.length + 1 := by omega
          rw [if_pos hend0]
          rw [hs2, hKc]
          have hrh : returnHeightOf fo right T = fo := by
            unfold returnHeightOf
            rw [← hAdef, hAnil]
            rfl
          have htail : integTail W fo right T =
              if right < W then ⟨right, returnHeightOf fo right T⟩ :: q :: K'
              else q :: K' := by
            unfold integTail
            rw [← hKdef, hKc]
            show (if q.x = right then q :: K'
                else if right < W then ⟨right, returnHeightOf fo right T⟩ :: q :: K'
                else q :: K') =
              if right < W then ⟨right, returnHeightOf fo right T⟩ :: q :: K' else q :: K'
            rw [if_neg hq]
          rw [htail, hrh]
          by_cases hrW : right < W
          · rw [if_pos hrW, if_pos hrW]
            have : (P ++ b :: (q :: K')).insertIdx (P.length + 1) ⟨right, fo⟩ =
                P ++ [b] ++ ⟨right, fo⟩ :: q :: K' := by
              have hl3 : (P ++ [b]).length = P.length + 1 := by simp
              have heq : P ++ b :: (q :: K') = (P ++ [b]) ++ (q :: K') := by simp
              rw [heq, ← hl3, insertIdx_append_length]
            rw [this]
            all_goals simp
          · rw [if_neg hrW, if_neg hrW]
            all_goals simp
        · have hAne : A ≠ [] := by
            intro h0
            rw [h0] at hA0
            simp at hA0
          have hendne : ¬ (P.length + 1 + A.length = P.length + 1) := by omega
          rw [if_neg hendne]
          have hretidx : P.length + 1 + A.length - 1 = P.length + 1 + (A.length - 1) := by
            omega
          have hretval : (P ++ b :: T).getD (P.length + 1 + A.length - 1) ⟨0, 0⟩ =
              A.getLastD ⟨0, 0⟩ := by
            rw [hretidx, getD_append_cons_right]
            have hgl : A.getD (A.length - 1) ⟨0, 0⟩ = A.getLastD ⟨0, 0⟩ := getD_last A hAne ⟨0, 0⟩
            rw [← hgl]
            have hlt : A.length - 1 < A.length := by
              have : 1 ≤ A.length := List.length_pos.2 hAne
              omega
            rw [← hAK]
            rw [getD_eq_getElem _ _ _ (by simp; omega), getD_eq_getElem _ _ _ hlt]
            exact List.getElem_append_left hlt
          have hrh : (A.getLastD ⟨0, 0⟩).y = returnHeightOf fo right T := by
            unfold returnHeightOf
            rw [← hAdef, getLastD_map_y A hAne fo ⟨0, 0⟩]
          rw [hretval, hrh, hs2, hKc]
          have htail : integTail W fo right T =
              if right < W then ⟨right, returnHeightOf fo right T⟩ :: q :: K'
              else q :: K' := by
            unfold integTail
            rw [← hKdef, hKc]
            show (if q.x = right then q :: K'
                else if right < W then ⟨right, returnHeightOf fo right T⟩ :: q :: K'
                else q :: K') =
              if right < W then ⟨right, returnHeightOf fo right T⟩ :: q :: K' else q :: K'
            rw [if_neg hq]
          rw [htail]
          by_cases hrW : right < W
          · rw [if_pos hrW, if_pos hrW]
            have : (P ++ b :: (q :: K')).insertIdx (P.length + 1)
                ⟨right, returnHeightOf fo right T⟩ =
                P ++ [b] ++ ⟨right, returnHeightOf fo right T⟩ :: q :: K' := by
              have hl3 : (P ++ [b]).length = P.length + 1 := by simp
              have heq : P ++ b :: (q :: K') = (P ++ [b]) ++ (q :: K') := by simp
              rw [heq, ← hl3, insertIdx_append_length]
            rw [this]
            all_goals simp
          · rw [if_neg hrW, if_neg hrW]
            all_goals simp

/-! ## Lemmas about `profileHeight` -/

theorem ph_cons_skip (p : Point) (rest : List Point) (c : Nat) (hne : rest ≠ [])
    (hle : (rest.headD ⟨0, 0⟩).x ≤ c) :
    profileHeight (p :: rest) c = profileHeight rest c := by
  cases rest with
  | nil => simp at hne
  | cons q rest' =>
    show (if c < q.x then p.y else profileHeight (q :: rest') c) = _
    rw [if_neg (by simp at hle; omega)]

theorem ph_append_right (M S : List Point) (c : Nat) (hS : S ≠ [])
    (hhead : (S.headD ⟨0, 0⟩).x ≤ c) (hM : ∀ p ∈ M, p.x ≤ c) :
    profileHeight (M ++ S) c = profileHeight S c := by
  induction M with
  | nil => rfl
  | cons p M ih =>
    show profileHeight (p :: (M ++ S)) c = profileHeight S c
    rw [ph_cons_skip p (M ++ S) c (by simp [hS]) ?_]
    · exact ih (fun a ha => hM a (by simp [ha]))
    · cases M with
      | nil => simpa using hhead
      | cons m M' =>
        have : m.x ≤ c := hM m (by simp)
        simpa using this

theorem ph_append_left (M S : List Point) (c : Nat) (hM : M ≠ [])
    (hS : ∀ p ∈ S, c < p.x) :
    profileHeight (M ++ S) c = profileHeight M c := by
  induction M with
  | nil => simp at hM
  | cons p M ih =>
    cases M with
    | nil =>
      cases S with
      | nil => rfl
      | cons s S' =>
        show (if c < s.x then p.y else _) = p.y
        rw [if_pos (hS s (by simp))]
    | cons m M' =>
      show (if c < m.x then p.y else profileHeight ((m :: M') ++ S) c) =
        (if c < m.x then p.y else profileHeight (m :: M') c)
      by_cases hc : c < m.x
      · rw [if_pos hc, if_pos hc]
      · rw [if_neg hc, if_neg hc]
        exact ih (by simp)

theorem ph_cons_head (b : Point) (T : List Point) (c : Nat)
    (hT : T = [] ∨ c < (T.headD ⟨0, 0⟩).x) :
    profileHeight (b :: T) c = b.y := by
  cases T with
  | nil => rfl
  | cons q T' =>
    show (if c < q.x then b.y else _) = b.y
    rcases hT with h | h
    · simp at h
    · rw [if_pos (by simpa using h)]

theorem ph_all_le (l : List Point) (c : Nat) (hne : l ≠ [])
    (hall : ∀ p ∈ l, p.x ≤ c) :
    profileHeight l c = (l.getLastD ⟨0, 0⟩).y := by
  induction l with
  | nil => simp at hne
  | cons p l ih =>
    cases l with
    | nil => rfl
    | cons q l' =>
      show (if c < q.x then p.y else profileHeight (q :: l') c) = _
      rw [if_neg (by have := hall q (by simp); omega)]
      rw [ih (by simp) (fun a ha => hall a (by simp [ha]))]
      simp

theorem getLastD_map_y' (A : List Point) (t : Point) :
    (A.map Point.y).getLastD t.y = (A.getLastD t).y := by
  induction A generalizing t with
  | nil => rfl
  | cons a A ih =>
    rw [List.map_cons, List.getLastD_cons, List.getLastD_cons]
    exact ih a

/-- A slice start's own column has exactly the slice's height. -/
theorem ph_at_slice_start (M S : List Point) (q : Point)
    (hsort : sortedX (M ++ q :: S)) :
    profileHeight (M ++ q :: S) q.x = q.y := by
  rw [ph_append_right M (q :: S) q.x (by simp) (by simp) ?hM]
  case hM =>
    intro p hp
    have := (List.pairwise_append.1 hsort).2.2 p hp q (by simp)
    omega
  apply ph_cons_head
  cases S with
  | nil => simp
  | cons s S' =>
    right
    have hqs : q.x < s.x := by
      have := List.pairwise_append.1 hsort
      have h2 := this.2.1
      rw [List.pairwise_cons] at h2
      exact h2.1 s (by simp)
    simpa using hqs

theorem headD_append_cons (P : List Point) (b : Point) (T : List Point) (d : Point) :
    (P ++ b :: T).headD d = P.headD b := by
  cases P <;> rfl

theorem getLastD_append_cons (P : List Point) (t : Point) (T : List Point) (d : Point) :
    (P ++ t :: T).getLastD d = T.getLastD t := by
  induction P generalizing d with
  | nil =>
    rw [List.nil_append, List.getLastD_cons]
  | cons p P ih =>
    show ((p :: (P ++ t :: T)).getLastD d) = T.getLastD t
    rw [List.getLastD_cons]
    exact ih p

theorem mem_dropWhile_ge (l : List Point) (key : Nat) (hsort : sortedX l) :
    ∀ p ∈ l.dropWhile (fun p => p.x < key), key ≤ p.x := by
  induction l with
  | nil => simp
  | cons a l ih =>
    intro p hp
    rw [List.dropWhile_cons] at hp
    by_cases ha : a.x < key
    · simp only [decide_eq_true_eq, ha, if_pos] at hp
      exact ih (List.Pairwise.of_cons hsort) p (by simpa using hp)
    · simp only [decide_eq_true_eq, ha, if_neg, if_false] at hp
      rcases List.mem_cons.1 hp with h | h
      · subst h
        omega
      · have hax : a.x < p.x := (List.pairwise_cons.1 hsort).1 p h
        omega

theorem returnHeightOf_cases (fo right : Nat) (T : List Point) :
    returnHeightOf fo right T = fo ∨ ∃ p ∈ T, returnHeightOf fo right T = p.y := by
  unfold returnHeightOf
  cases hA : T.takeWhile (fun p => p.x < right) with
  | nil => left; rfl
  | cons a A' =>
    right
    have hmem : ∀ q ∈ a :: A', q ∈ T := by
      intro q hq
      exact (List.takeWhile_sublist _).subset (hA ▸ hq)
    have hlast : (a :: A').getLastD ⟨0, 0⟩ ∈ (a :: A') := by
      rw [List.getLastD_cons]
      exact List.getLastD_mem_cons A' a
    refine ⟨(a :: A').getLastD ⟨0, 0⟩, hmem _ hlast, ?_⟩
    rw [show ((a :: A').map Point.y) = ((a :: A').map Point.y) from rfl]
    have := getLastD_map_y' (a :: A') ⟨0, fo⟩
    simpa using this

theorem integTail_eq_nil (W fo right : Nat) (T : List Point)
    (hKc : T.dropWhile (fun p => p.x < right) = []) :
    integTail W fo right T =
      if right < W then [⟨right, returnHeightOf fo right T⟩] else [] := by
  unfold integTail
  rw [hKc]

theorem integTail_eq_cons (W fo right : Nat) (T : List Point) (q : Point) (K' : List Point)
    (hKc : T.dropWhile (fun p => p.x < right) = q :: K') :
    integTail W fo right T =
      if q.x = right then q :: K'
      else if right < W then ⟨right, returnHeightOf fo right T⟩ :: q :: K' else q :: K' := by
  unfold integTail
  rw [hKc]

theorem mem_integTail (W fo right : Nat) (T : List Point) (hsort : sortedX T) :
    ∀ r ∈ integTail W fo right T,
      right ≤ r.x ∧
        (r ∈ T ∨ (r.x = right ∧ right < W ∧ (r.y = fo ∨ ∃ p ∈ T, r.y = p.y))) := by
  intro r hr
  have hK := mem_dropWhile_ge T right hsort
  cases hKc : T.dropWhile (fun p => p.x < right) with
  | nil =>
    rw [integTail_eq_nil W fo right T hKc] at hr
    by_cases hrW : right < W
    · rw [if_pos hrW] at hr
      simp at hr
      subst hr
      exact ⟨le_refl _, Or.inr ⟨rfl, hrW, returnHeightOf_cases fo right T⟩⟩
    · rw [if_neg hrW] at hr
      simp at hr
  | cons q K' =>
    rw [integTail_eq_cons W fo right T q K' hKc] at hr
    have hmemT : ∀ a ∈ q :: K', a ∈ T := by
      intro a ha
      exact (List.dropWhile_sublist _).subset (hKc ▸ ha)
    by_cases hq : q.x = right
    · rw [if_pos hq] at hr
      refine ⟨hK r (hKc ▸ hr), Or.inl (hmemT r hr)⟩
    · rw [if_neg hq] at hr
      by_cases hrW : right < W
      · rw [if_pos hrW] at hr
        rcases List.mem_cons.1 hr with h | h
        · subst h
          exact ⟨le_refl _, Or.inr ⟨rfl, hrW, returnHeightOf_cases fo right T⟩⟩
        · refine ⟨hK r (hKc ▸ h), Or.inl (hmemT r h)⟩
      · rw [if_neg hrW] at hr
        refine ⟨hK r (hKc ▸ hr), Or.inl (hmemT r hr)⟩

theorem sorted_integTail (W fo right : Nat) (T : List Point) (hsort : sortedX T) :
    sortedX (integTail W fo right T) := by
  have hKsort : sortedX (T.dropWhile (fun p => p.x < right)) :=
    List.Pairwise.sublist (List.dropWhile_sublist _) hsort
  have hK := mem_dropWhile_ge T right hsort
  cases hKc : T.dropWhile (fun p => p.x < right) with
  | nil =>
    rw [integTail_eq_nil W fo right T hKc]
    by_cases hrW : right < W
    · rw [if_pos hrW]
      simp [sortedX]
    · rw [if_neg hrW]
      simp [sortedX]
  | cons q K' =>
    rw [integTail_eq_cons W fo right T q K' hKc]
    rw [hKc] at hKsort
    by_cases hq : q.x = right
    · rw [if_pos hq]
      exact hKsort
    · by_cases hrW : right < W
      · rw [if_neg hq, if_pos hrW]
        refine List.pairwise_cons.2 ⟨?_, hKsort⟩
        intro a ha
        show right < a.x
        have hqright : right < q.x := by
          have := hK q (hKc ▸ List.mem_cons_self q K')
          omega
        rcases List.mem_cons.1 ha with h | h
        · subst h
          exact hqright
        · have h2 : q.x < a.x := (List.pairwise_cons.1 hKsort).1 a h
          omega
      · rw [if_neg hq, if_neg hrW]
        exact hKsort

theorem headD_append_of_ne_nil (P X : List Point) (d : Point) (hP : P ≠ []) :
    (P ++ X).headD d = P.headD d := by
  cases P with
  | nil => simp at hP
  | cons p P' => rfl

theorem getLastD_mem (P : List Point) (hP : P ≠ []) (d : Point) :
    P.getLastD d ∈ P := by
  cases P with
  | nil => simp at hP
  | cons p P' =>
    rw [List.getLastD_cons]
    exact List.getLastD_mem_cons P' p

/-- Gluing lemma: the profile produced by integrating a rectangle whose
start slice splits the old profile as `P / start / T` is well-formed. -/
theorem inv_glue (W H : Nat) (P : List Point) (left width bottom fo : Nat)
    (T : List Point)
    (hPsort : sortedX P) (hTsort : sortedX T)
    (hP : ∀ p ∈ P, p.x < left) (hT : ∀ p ∈ T, left < p.x)
    (hPWH : ∀ p ∈ P, p.x < W ∧ p.y ≤ H) (hTWH : ∀ p ∈ T, p.x < W ∧ p.y ≤ H)
    (hh : (P.headD ⟨left, bottom⟩).x = 0)
    (hw : 1 ≤ width) (hlw : left + width ≤ W) (hbot : bottom ≤ H) (hfo : fo ≤ H) :
    Inv W H (P ++ ⟨left, bottom⟩ :: integTail W fo (left + width) T) := by
  set right := left + width with hrdef
  have hmem := mem_integTail W fo right T hTsort
  refine ⟨by simp, ?_, ?_, ?_⟩
  · rw [headD_append_cons]
    exact hh
  · rw [sortedX, List.pairwise_append]
    refine ⟨hPsort, ?_, ?_⟩
    · rw [List.pairwise_cons]
      refine ⟨?_, sorted_integTail W fo right T hTsort⟩
      intro a ha
      show left < a.x
      have h1 := (hmem a ha).1
      omega
    · intro a ha b hb
      have ha' := hP a ha
      rcases List.mem_cons.1 hb with h | h
      · subst h
        exact ha'
      · have h1 := (hmem b h).1
        show a.x < b.x
        omega
  · intro p hp
    rcases List.mem_append.1 hp with h | h
    · exact hPWH p h
    · rcases List.mem_cons.1 h with h2 | h2
      · subst h2
        refine ⟨?_, hbot⟩
        show left < W
        omega
      · obtain ⟨hge, hcase⟩ := hmem p h2
        rcases hcase with hmemT | ⟨hx, hxW, hy⟩
        · exact hTWH p hmemT
        · refine ⟨by omega, ?_⟩
          rcases hy with hy | ⟨q, hq, hy⟩
          · rw [hy]
            exact hfo
          · rw [hy]
            exact (hTWH q hq).2

/-- C6 key step: `integrateRectangle` preserves well-formedness, in
every branch, for any rectangle of positive width lying inside the
area. -/
theorem integrate_preserves_inv (W H : Nat) (slices : List Point)
    (left width bottom : Nat)
    (hinv : Inv W H slices) (hw : 1 ≤ width) (hlw : left + width ≤ W)
    (hbot : bottom ≤ H) :
    Inv W H (integrateRectangle W slices left width bottom) := by
  obtain ⟨hne, hh, hsort, hWH⟩ := hinv
  have hsl : slices.takeWhile (fun p => p.x < left) ++
      slices.dropWhile (fun p => p.x < left) = slices :=
    List.takeWhile_append_dropWhile _ _
  set P := slices.takeWhile (fun p => p.x < left) with hPdef
  set T0 := slices.dropWhile (fun p => p.x < left) with hT0def
  have hPmem : ∀ p ∈ P, p.x < left := by
    intro p hp
    have := List.mem_takeWhile_imp (hPdef ▸ hp)
    simpa using this
  have hT0ge : ∀ p ∈ T0, left ≤ p.x := mem_dropWhile_ge slices left hsort
  have hPsort : sortedX P :=
    List.Pairwise.sublist (List.takeWhile_sublist _) hsort
  have hT0sort : sortedX T0 :=
    List.Pairwise.sublist (List.dropWhile_sublist _) hsort
  have hPWH : ∀ p ∈ P, p.x < W ∧ p.y ≤ H := by
    intro p hp
    exact hWH p ((List.takeWhile_sublist _).subset hp)
  have hT0WH : ∀ p ∈ T0, p.x < W ∧ p.y ≤ H := by
    intro p hp
    exact hWH p ((List.dropWhile_sublist _).subset hp)
  clear_value P T0
  clear hPdef hT0def
  cases hT0c : T0 with
  | nil =>
    have hPs : P = slices := by
      rw [← hsl, hT0c, List.append_nil]
    have hPne : P ≠ [] := by
      rw [hPs]
      exact hne
    have hslP : slices = P ++ [] := by
      rw [List.append_nil, hPs]
    rw [hslP, integrate_eq_miss W P [] left width bottom hPne hPmem (by simp)]
    apply inv_glue W H P left width bottom _ [] hPsort (by simp [sortedX])
      hPmem (by simp) hPWH (by simp) ?_ hw hlw hbot ?_
    · rw [← headD_append_of_ne_nil P [] ⟨left, bottom⟩ hPne]
      rw [List.append_nil, hPs]
      have hdd : slices.headD ⟨left, bottom⟩ = slices.headD ⟨0, 0⟩ := by
        cases slices with
        | nil => exact absurd rfl hne
        | cons s S => rfl
      rw [hdd]
      exact hh
    · exact (hPWH _ (getLastD_mem P hPne ⟨0, 0⟩)).2
  | cons t T =>
    have hslc : slices = P ++ t :: T := by
      rw [← hsl, hT0c]
    have hTmem : ∀ p ∈ T, t.x < p.x := by
      intro p hp
      have := (List.pairwise_cons.1 (hT0c ▸ hT0sort)).1 p hp
      exact this
    by_cases ht : t.x = left
    · rw [hslc, ← ht, integrate_eq_hit W P t T width bottom
        (fun p hp => ht ▸ hPmem p hp) hTmem]
      rw [ht]
      apply inv_glue W H P left width bottom t.y T hPsort
        (List.Pairwise.of_cons (hT0c ▸ hT0sort))
        hPmem (fun p hp => ht ▸ hTmem p hp) hPWH
        (fun p hp => hT0WH p (hT0c ▸ List.mem_cons_of_mem t hp)) ?_ hw hlw hbot ?_
      · cases P with
        | nil =>
          have hht : slices.headD ⟨0, 0⟩ = t := by
            rw [hslc]
            rfl
          show left = 0
          rw [← ht, ← hht]
          exact hh
        | cons p0 P' =>
          show p0.x = 0
          have hht : slices.headD ⟨0, 0⟩ = p0 := by
            rw [hslc]
            rfl
          rw [← hht]
          exact hh
      · exact (hT0WH t (hT0c ▸ List.mem_cons_self t T)).2
    · have hPne : P ≠ [] := by
        intro h0
        have hheadt : slices.headD ⟨0, 0⟩ = t := by
          rw [hslc, h0]
          rfl
        have ht0 : t.x = 0 := by
          rw [← hheadt] at ht ⊢
          exact hh
        have := hT0ge t (hT0c ▸ List.mem_cons_self t T)
        omega
      have hTmem' : ∀ p ∈ t :: T, left < p.x := by
        intro p hp
        rcases List.mem_cons.1 hp with h | h
        · subst h
          have := hT0ge p (hT0c ▸ List.mem_cons_self p T)
          omega
        · have h1 := hTmem p h
          have h2 := hT0ge t (hT0c ▸ List.mem_cons_self t T)
          omega
      rw [hslc, integrate_eq_miss W P (t :: T) left width bottom hPne hPmem hTmem']
      apply inv_glue W H P left width bottom _ (t :: T) hPsort (hT0c ▸ hT0sort)
        hPmem hTmem' hPWH (hT0c ▸ hT0WH) ?_ hw hlw hbot ?_
      · rw [← headD_append_of_ne_nil P (t :: T) ⟨left, bottom⟩ hPne, ← hslc]
        have : slices.headD ⟨left, bottom⟩ = slices.headD ⟨0, 0⟩ := by
          cases slices with
          | nil => exact absurd rfl hne
          | cons s S => rfl
        rw [this]
        exact hh
      · exact (hPWH _ (getLastD_mem P hPne ⟨0, 0⟩)).2

/-- Integrating a rectangle of positive width whose start is an existing
breakpoint sets the silhouette height to `bottom` exactly over the
rectangle's span and leaves every other column unchanged. -/
theorem ph_integrate_hit (W : Nat) (P : List Point) (t : Point) (T : List Point)
    (width bottom : Nat) (hw : 1 ≤ width)
    (hsort : sortedX (P ++ t :: T))
    (hhead : ((P ++ t :: T).headD ⟨0, 0⟩).x = 0)
    (c : Nat) (hc : c < W) :
    profileHeight (P ++ ⟨t.x, bottom⟩ :: integTail W t.y (t.x + width) T) c =
      if t.x ≤ c ∧ c < t.x + width then bottom
      else profileHeight (P ++ t :: T) c := by
  set right := t.x + width with hrdef
  have hP : ∀ p ∈ P, p.x < t.x := fun p hp =>
    (List.pairwise_append.1 hsort).2.2 p hp t (by simp)
  have htTsort : sortedX (t :: T) := (List.pairwise_append.1 hsort).2.1
  have hTsort : sortedX T := List.Pairwise.of_cons htTsort
  have hT : ∀ p ∈ T, t.x < p.x := fun p hp => (List.pairwise_cons.1 htTsort).1 p hp
  have hmem := mem_integTail W t.y right T hTsort
  have hK := mem_dropWhile_ge T right hTsort
  have hA : ∀ p ∈ T.takeWhile (fun p => p.x < right), p.x < right := by
    intro p hp
    have := List.mem_takeWhile_imp hp
    simpa using this
  have hAK : T.takeWhile (fun p => p.x < right) ++
      T.dropWhile (fun p => p.x < right) = T := List.takeWhile_append_dropWhile _ _
  by_cases hcspan : t.x ≤ c ∧ c < right
  · rw [if_pos hcspan]
    rw [ph_append_right P (⟨t.x, bottom⟩ :: integTail W t.y right T) c (by simp)
      (by show t.x ≤ c; omega) (fun p hp => by have := hP p hp; omega)]
    apply ph_cons_head
    cases hIT : integTail W t.y right T with
    | nil => exact Or.inl rfl
    | cons a L =>
      right
      have := (hmem a (hIT ▸ List.mem_cons_self a L)).1
      show c < a.x
      omega
  · rw [if_neg hcspan]
    by_cases hclt : c < t.x
    · have hPne : P ≠ [] := by
        intro h0
        rw [h0] at hhead
        have : t.x = 0 := hhead
        omega
      rw [ph_append_left P (⟨t.x, bottom⟩ :: integTail W t.y right T) c hPne ?_,
        ph_append_left P (t :: T) c hPne ?_]
      · intro p hp
        rcases List.mem_cons.1 hp with h | h
        · subst h
          exact hclt
        · have := hT p h
          omega
      · intro p hp
        rcases List.mem_cons.1 hp with h | h
        · subst h
          exact hclt
        · have h1 := (hmem p h).1
          show c < p.x
          omega
    · have hcr : right ≤ c := by omega
      have hrW : right < W := by omega
      have htc : t.x ≤ c := by omega
      rw [ph_append_right P (⟨t.x, bottom⟩ :: integTail W t.y right T) c (by simp)
        (by show t.x ≤ c; omega) (fun p hp => by have := hP p hp; omega)]
      rw [ph_append_right P (t :: T) c (by simp) (by show t.x ≤ c; omega)
        (fun p hp => by have := hP p hp; omega)]
      cases hKc : T.dropWhile (fun p => p.x < right) with
      | nil =>
        have hAT : T.takeWhile (fun p => p.x < right) = T := by
          have h1 := hAK
          rw [hKc, List.append_nil] at h1
          exact h1
        have hTlt : ∀ p ∈ T, p.x < right := by
          intro p hp
          apply hA
          rw [hAT]
          exact hp
        rw [integTail_eq_nil W t.y right T hKc, if_pos hrW]
        rw [ph_cons_skip ⟨t.x, bottom⟩ [⟨right, returnHeightOf t.y right T⟩] c
          (by simp) (by show right ≤ c; omega)]
        have hl : profileHeight [(⟨right, returnHeightOf t.y right T⟩ : Point)] c =
            returnHeightOf t.y right T := rfl
        rw [hl]
        rw [ph_all_le (t :: T) c (by simp) ?_]
        · rw [List.getLastD_cons]
          unfold returnHeightOf
          rw [hAT, getLastD_map_y' T t]
        · intro p hp
          rcases List.mem_cons.1 hp with h | h
          · subst h
            omega
          · have := hTlt p h
            omega
      | cons q K' =>
        have hKsort : sortedX (q :: K') := by
          rw [← hKc]
          exact List.Pairwise.sublist (List.dropWhile_sublist _) hTsort
        have hqge : right ≤ q.x := hK q (hKc ▸ List.mem_cons_self q K')
        have hTsplit : T = T.takeWhile (fun p => p.x < right) ++ q :: K' := by
          rw [← hKc, hAK]
        by_cases hq : q.x = right
        · rw [integTail_eq_cons W t.y right T q K' hKc, if_pos hq]
          rw [ph_cons_skip ⟨t.x, bottom⟩ (q :: K') c (by simp) (by show q.x ≤ c; omega)]
          conv_rhs => rw [hTsplit]
          rw [show t :: (T.takeWhile (fun p => p.x < right) ++ q :: K') =
            (t :: T.takeWhile (fun p => p.x < right)) ++ q :: K' from rfl]
          rw [ph_append_right (t :: T.takeWhile (fun p => p.x < right)) (q :: K') c
            (by simp) (by show q.x ≤ c; omega) ?_]
          intro p hp
          rcases List.mem_cons.1 hp with h | h
          · subst h
            omega
          · have := hA p h
            omega
        · have hqgt : right < q.x := by omega
          rw [integTail_eq_cons W t.y right T q K' hKc, if_neg hq, if_pos hrW]
          rw [ph_cons_skip ⟨t.x, bottom⟩ (⟨right, returnHeightOf t.y right T⟩ :: q :: K') c
            (by simp) (by show right ≤ c; omega)]
          by_cases hcq : c < q.x
          · rw [ph_cons_head ⟨right, returnHeightOf t.y right T⟩ (q :: K') c
              (Or.inr (by show c < q.x; omega))]
            conv_rhs => rw [hTsplit]
            rw [show t :: (T.takeWhile (fun p => p.x < right) ++ q :: K') =
              (t :: T.takeWhile (fun p => p.x < right)) ++ q :: K' from rfl]
            rw [ph_append_left (t :: T.takeWhile (fun p => p.x < right)) (q :: K') c
              (by simp) ?_]
            · rw [ph_all_le (t :: T.takeWhile (fun p => p.x < right)) c (by simp) ?_]
              · rw [List.getLastD_cons]
                unfold returnHeightOf
                rw [getLastD_map_y' (T.takeWhile (fun p => p.x < right)) t]
              · intro p hp
                rcases List.mem_cons.1 hp with h | h
                · subst h
                  omega
                · have := hA p h
                  omega
            · intro p hp
              rcases List.mem_cons.1 hp with h | h
              · subst h
                exact hcq
              · have h2 : q.x < p.x := (List.pairwise_cons.1 hKsort).1 p h
                omega
          · rw [ph_cons_skip ⟨right, returnHeightOf t.y right T⟩ (q :: K') c
              (by simp) (by show q.x ≤ c; omega)]
            conv_rhs => rw [hTsplit]
            rw [show t :: (T.takeWhile (fun p => p.x < right) ++ q :: K') =
              (t :: T.takeWhile (fun p => p.x < right)) ++ q :: K' from rfl]
            rw [ph_append_right (t :: T.takeWhile (fun p => p.x < right)) (q :: K') c
              (by simp) (by show q.x ≤ c; omega) ?_]
            intro p hp
            rcases List.mem_cons.1 hp with h | h
            · subst h
              omega
            · have := hA p h
              omega

/-! ## Reference view of the placement search -/

theorem takeWhile_pred_of_lt {α : Type} (pr : α → Bool) (l : List α) (d : α) :
    ∀ j < (l.takeWhile pr).length, pr (l.getD j d) = true := by
  induction l with
  | nil => simp
  | cons a l ih =>
    intro j hj
    rw [List.takeWhile_cons] at hj
    by_cases ha : pr a
    · rw [if_pos ha] at hj
      cases j with
      | zero => exact ha
      | succ j' =>
        simp only [List.length_cons] at hj
        exact ih j' (by omega)
    · rw [if_neg ha] at hj
      simp at hj

theorem takeWhile_pred_at_end {α : Type} (pr : α → Bool) (l : List α) (d : α)
    (h : (l.takeWhile pr).length < l.length) :
    pr (l.getD (l.takeWhile pr).length d) = false := by
  induction l with
  | nil => simp at h
  | cons a l ih =>
    rw [List.takeWhile_cons]
    by_cases ha : pr a
    · rw [if_pos ha]
      simp only [List.length_cons]
      rw [List.takeWhile_cons, if_pos ha] at h
      simp only [List.length_cons] at h
      exact ih (by omega)
    · rw [if_neg ha]
      simpa using ha

theorem le_length_takeWhile {α : Type} (pr : α → Bool) (l : List α) (d : α) (k : Nat)
    (hk : k ≤ l.length) (hall : ∀ j < k, pr (l.getD j d) = true) :
    k ≤ (l.takeWhile pr).length := by
  induction l generalizing k with
  | nil =>
    simp at hk
    omega
  | cons a l ih =>
    cases k with
    | zero => omega
    | succ k' =>
      have ha : pr a = true := hall 0 (by omega)
      rw [List.takeWhile_cons, if_pos ha]
      simp only [List.length_cons]
      have := ih k' (by simpa using hk) (fun j hj => hall (j + 1) (by omega))
      omega

theorem sorted_getD_lt (slices : List Point) (hsort : sortedX slices)
    (i j : Nat) (d : Point) (hij : i < j) (hj : j < slices.length) :
    (slices.getD i d).x < (slices.getD j d).x := by
  rw [getD_eq_getElem _ _ _ (by omega), getD_eq_getElem _ _ _ hj]
  exact List.pairwise_iff_getElem.1 hsort i j (by omega) hj hij

theorem getD_mem_of_lt (l : List Point) (j : Nat) (d : Point) (hj : j < l.length) :
    l.getD j d ∈ l := by
  rw [getD_eq_getElem _ _ _ hj]
  exact List.getElem_mem hj

theorem advanceRight_unfold (W : Nat) (slices : List Point) (rre right : Nat)
    (h2 : right ≤ slices.length) :
    advanceRight W slices rre right =
      if (if right = slices.length then W else (slices.getD right ⟨0, 0⟩).x) > rre
      then right
      else advanceRight W slices rre (right + 1) := by
  rw [advanceRight, dif_pos h2]

theorem advanceRight_spec (W : Nat) (slices : List Point) (rre : Nat)
    (hxW : ∀ p ∈ slices, p.x < W) :
    ∀ fuel right, slices.length + 1 - right ≤ fuel → right ≤ slices.length →
      (∀ j < right, (slices.getD j ⟨0, 0⟩).x ≤ rre) →
      advanceRight W slices rre right =
        if W ≤ rre then slices.length + 1
        else (slices.takeWhile (fun p => p.x ≤ rre)).length := by
  intro fuel
  induction fuel with
  | zero =>
    intro right h1 h2 _
    omega
  | succ f ih =>
    intro right h1 h2 hb
    rw [advanceRight_unfold W slices rre right h2]
    by_cases hr : right = slices.length
    · rw [if_pos hr]
      by_cases hW : W ≤ rre
      · rw [if_neg (show ¬ W > rre by omega), if_pos hW]
        subst hr
        rw [advanceRight, dif_neg (by omega)]
      · rw [if_pos (show W > rre by omega), if_neg hW]
        subst hr
        apply Nat.le_antisymm
        · refine le_length_takeWhile _ _ (⟨0, 0⟩ : Point) _ (le_refl _) ?_
          intro j hj
          simpa using hb j hj
        · exact (List.takeWhile_sublist _).length_le
    · rw [if_neg hr]
      have hrlt : right < slices.length := by omega
      have hWx : (slices.getD right ⟨0, 0⟩).x < W :=
        hxW _ (getD_mem_of_lt slices right ⟨0, 0⟩ hrlt)
      by_cases hx : (slices.getD right ⟨0, 0⟩).x > rre
      · rw [if_pos hx]
        rw [if_neg (show ¬ W ≤ rre by omega)]
        apply Nat.le_antisymm
        · refine le_length_takeWhile _ _ (⟨0, 0⟩ : Point) _ (by omega) ?_
          intro j hj
          simpa using hb j hj
        · by_contra hcon
          have hlt2 : right < (slices.takeWhile (fun p => p.x ≤ rre)).length := by
            omega
          have := takeWhile_pred_of_lt (fun p => p.x ≤ rre) slices ⟨0, 0⟩ right hlt2
          simp only [decide_eq_true_eq] at this
          omega
      · rw [if_neg hx]
        rw [ih (right + 1) (by omega) (by omega) ?_]
        intro j hj
        by_cases hjr : j < right
        · exact hb j hjr
        · have hjeq : j = right := by omega
          subst hjeq
          omega

theorem stopIdx_pos (W : Nat) (slices : List Point) (w : Nat) :
    1 ≤ stopIdx W slices w := by
  unfold stopIdx
  omega

theorem stopIdx_le (W : Nat) (slices : List Point) (w : Nat) (hne : slices ≠ []) :
    stopIdx W slices w ≤ slices.length := by
  unfold stopIdx
  have h1 : ((slices.drop 1).takeWhile (fun p => p.x + w < W)).length ≤
      (slices.drop 1).length := (List.takeWhile_sublist _).length_le
  have h2 : (slices.drop 1).length = slices.length - 1 := by simp
  have h3 : 1 ≤ slices.length := List.length_pos.2 hne
  omega

theorem getD_drop_one (slices : List Point) (j : Nat) (d : Point) :
    (slices.drop 1).getD j d = slices.getD (1 + j) d := by
  cases slices with
  | nil => rfl
  | cons a l =>
    show l.getD j d = (a :: l).getD (1 + j) d
    rw [Nat.add_comm]
    rfl

theorem stopIdx_mem (W : Nat) (slices : List Point) (w : Nat) :
    ∀ i, 1 ≤ i → i < stopIdx W slices w →
      (slices.getD i ⟨0, 0⟩).x + w < W := by
  intro i h1 h2
  unfold stopIdx at h2
  have hj : i - 1 < ((slices.drop 1).takeWhile (fun p => p.x + w < W)).length := by
    omega
  have hpred := takeWhile_pred_of_lt (fun p => p.x + w < W) (slices.drop 1) ⟨0, 0⟩
    (i - 1) hj
  rw [getD_drop_one] at hpred
  have hidx : 1 + (i - 1) = i := by omega
  rw [hidx] at hpred
  simpa using hpred

theorem stopIdx_gt (W : Nat) (slices : List Point) (w : Nat) (hsort : sortedX slices) :
    ∀ i, i < slices.length → (i = 0 ∨ (slices.getD i ⟨0, 0⟩).x + w < W) →
      i < stopIdx W slices w := by
  intro i hi hc
  by_cases hi0 : i = 0
  · have := stopIdx_pos W slices w
    omega
  · rcases hc with h0 | hlt
    · exact absurd h0 hi0
    · unfold stopIdx
      have hle : i ≤ ((slices.drop 1).takeWhile (fun p => p.x + w < W)).length := by
        refine le_length_takeWhile _ _ (⟨0, 0⟩ : Point) _ (by simp; omega) ?_
        intro j hj
        rw [getD_drop_one]
        simp only [decide_eq_true_eq]
        by_cases hje : 1 + j = i
        · rw [hje]
          exact hlt
        · have hjlt : 1 + j < i := by omega
          have := sorted_getD_lt slices hsort (1 + j) i ⟨0, 0⟩ hjlt hi
          omega
      omega

theorem wend_le (slices : List Point) (w i : Nat) :
    wend slices w i ≤ slices.length := by
  unfold wend
  by_cases hi : i = 0
  · rw [if_pos hi]
    exact (List.takeWhile_sublist _).length_le
  · rw [if_neg hi]
    exact (List.takeWhile_sublist _).length_le

theorem findLoop_eq (W H : Nat) (slices : List Point) (w h : Nat)
    (hsort : sortedX slices) (hxW : ∀ p ∈ slices, p.x < W) (hw : w ≤ W) :
    ∀ fuel left st, slices.length - left ≤ fuel →
      left < slices.length →
      (left = 0 ∨ (slices.getD left ⟨0, 0⟩).x + w < W) →
      findLoop W H slices w h left (wend slices w left) st.1 st.2.1 st.2.2 =
        bestOf ((List.range' left (stopIdx W slices w - left)).foldl
          (candStep H h slices w) st) := by
  intro fuel
  induction fuel with
  | zero =>
    intro left st h1 h2 h3
    omega
  | succ f ih =>
    intro left st h1 h2 h3
    have hne : slices ≠ [] := by
      intro h0
      rw [h0] at h2
      simp at h2
    have hwendle : wend slices w left ≤ slices.length := wend_le slices w left
    have hstople : stopIdx W slices w ≤ slices.length := stopIdx_le W slices w hne
    have hstopgt : left < stopIdx W slices w := stopIdx_gt W slices w hsort left h2 h3
    rw [findLoop, dif_pos hwendle]
    have hbody : (if highestIn slices left (wend slices w left) + h < H then
        if highestIn slices left (wend slices w left) < st.2.2 then
          (some left, highestIn slices left (wend slices w left),
            highestIn slices left (wend slices w left))
        else (st.1, st.2.1, st.2.2)
      else (st.1, st.2.1, st.2.2)) = candStep H h slices w st left := rfl
    have hbody2 : (if highestIn slices left (wend slices w left) + h < H then
        if highestIn slices left (wend slices w left) < st.2.2 then
          (some left, highestIn slices left (wend slices w left),
            highestIn slices left (wend slices w left))
        else st
      else st) = candStep H h slices w st left := rfl
    simp only [hbody, hbody2]
    by_cases hl : left + 1 ≥ slices.length
    · rw [dif_pos hl]
      have hstop1 : stopIdx W slices w = left + 1 := by omega
      rw [hstop1]
      have : left + 1 - left = 1 := by omega
      rw [this]
      rfl
    · rw [dif_neg hl]
      have hl2 : left + 1 < slices.length := by omega
      have hb : ∀ j < wend slices w left,
          (slices.getD j ⟨0, 0⟩).x ≤ (slices.getD (left + 1) ⟨0, 0⟩).x + w := by
        intro j hj
        unfold wend at hj
        by_cases hi0 : left = 0
        · rw [if_pos hi0] at hj
          have := takeWhile_pred_of_lt (fun p => p.x < w) slices ⟨0, 0⟩ j hj
          simp only [decide_eq_true_eq] at this
          omega
        · rw [if_neg hi0] at hj
          have := takeWhile_pred_of_lt
            (fun p => p.x ≤ (slices.getD left ⟨0, 0⟩).x + w) slices ⟨0, 0⟩ j hj
          simp only [decide_eq_true_eq] at this
          have hmono := sorted_getD_lt slices hsort left (left + 1) ⟨0, 0⟩
            (by omega) hl2
          omega
      have hadv := advanceRight_spec W slices ((slices.getD (left + 1) ⟨0, 0⟩).x + w)
        hxW (slices.length + 1) (wend slices w left) (by omega) hwendle hb
      by_cases hWrre : W ≤ (slices.getD (left + 1) ⟨0, 0⟩).x + w
      · rw [hadv, if_pos hWrre]
        rw [if_pos (by omega)]
        have hstop1 : stopIdx W slices w = left + 1 := by
          have hle : stopIdx W slices w ≤ left + 1 := by
            by_contra hcon
            have := stopIdx_mem W slices w (left + 1) (by omega) (by omega)
            omega
          omega
        rw [hstop1]
        have : left + 1 - left = 1 := by omega
        rw [this]
        rfl
      · rw [hadv, if_neg hWrre]
        have hwend1 : (slices.takeWhile
            (fun p => p.x ≤ (slices.getD (left + 1) ⟨0, 0⟩).x + w)).length =
            wend slices w (left + 1) := by
          unfold wend
          rw [if_neg (by omega)]
        rw [hwend1]
        rw [if_neg (by have := wend_le slices w (left + 1); omega)]
        have hih := ih (left + 1) (candStep H h slices w st left) (by omega) hl2
          (Or.inr (by omega))
        rw [hih]
        have hrange : List.range' left (stopIdx W slices w - left) =
            left :: List.range' (left + 1) (stopIdx W slices w - (left + 1)) := by
          have hd : stopIdx W slices w - left = (stopIdx W slices w - (left + 1)) + 1 := by
            omega
          rw [hd, List.range'_succ]
        rw [hrange]
        rfl

theorem tryFindBestPlacement_eq (p : CygonRectanglePacker) (w h : Nat)
    (hsort : sortedX p.heightSlices)
    (hxW : ∀ q ∈ p.heightSlices, q.x < p.packingAreaWidth)
    (hne : p.heightSlices ≠ []) (hw : w ≤ p.packingAreaWidth) :
    tryFindBestPlacement p w h =
      match runCands p.packingAreaWidth p.packingAreaHeight p.heightSlices w h
          (stopIdx p.packingAreaWidth p.heightSlices w) with
      | (none, _) => none
      | (some i, y, _) => some ⟨(p.heightSlices.getD i ⟨0, 0⟩).x, y⟩ := by
  unfold tryFindBestPlacement
  have hbis0 : bisectLeft p.heightSlices w = wend p.heightSlices w 0 := by
    rw [bisectLeft_eq_takeWhile]
    unfold wend
    rw [if_pos rfl]
  rw [hbis0]
  have hfl := findLoop_eq p.packingAreaWidth p.packingAreaHeight p.heightSlices w h
    hsort hxW hw (p.heightSlices.length) 0
    (none, 0, p.packingAreaWidth * p.packingAreaHeight) (by omega)
    (List.length_pos.2 hne) (Or.inl rfl)
  have hfl2 : findLoop p.packingAreaWidth p.packingAreaHeight p.heightSlices w h 0
      (wend p.heightSlices w 0) none 0 (p.packingAreaWidth * p.packingAreaHeight) =
      bestOf ((List.range' 0 (stopIdx p.packingAreaWidth p.heightSlices w - 0)).foldl
        (candStep p.packingAreaHeight h p.heightSlices w)
        (none, 0, p.packingAreaWidth * p.packingAreaHeight)) := hfl
  simp only [hfl2]
  unfold runCands bestOf
  rw [List.range_eq_range']
  have hz : stopIdx p.packingAreaWidth p.heightSlices w - 0 =
      stopIdx p.packingAreaWidth p.heightSlices w := by omega
  rw [hz]
  cases hres : (List.range' 0 (stopIdx p.packingAreaWidth p.heightSlices w)).foldl
      (candStep p.packingAreaHeight h p.heightSlices w)
      (none, 0, p.packingAreaWidth * p.packingAreaHeight) with
  | mk b rest =>
    cases b with
    | none => rfl
    | some i => rfl

/-- Invariant of the candidate fold: the tracked best is an evaluated
candidate, its score equals its height, the score is a lower bound on
all evaluated eligible candidates, and strictly below all eligible
candidates left of the winner (first-seen wins ties). -/
theorem runCands_spec (W H : Nat) (slices : List Point) (w h : Nat) :
    ∀ n,
      ((runCands W H slices w h n).1 = none →
        (runCands W H slices w h n).2.1 = 0 ∧
          (runCands W H slices w h n).2.2 = W * H) ∧
      (∀ i, (runCands W H slices w h n).1 = some i → i < n ∧
        (runCands W H slices w h n).2.1 = candVal slices w i ∧
        (runCands W H slices w h n).2.2 = candVal slices w i ∧
        candVal slices w i + h < H) ∧
      (∀ j, j < n → candVal slices w j + h < H →
        (runCands W H slices w h n).2.2 ≤ candVal slices w j) ∧
      (∀ i, (runCands W H slices w h n).1 = some i →
        ∀ j, j < i → candVal slices w j + h < H →
          (runCands W H slices w h n).2.2 < candVal slices w j) := by
  intro n
  induction n with
  | zero =>
    refine ⟨fun _ => ⟨rfl, rfl⟩, ?_, ?_, ?_⟩
    · intro i hi
      simp [runCands] at hi
    · intro j hj
      omega
    · intro i hi
      simp [runCands] at hi
  | succ n ih =>
    obtain ⟨ih0, ih1, ih2, ih3⟩ := ih
    have hstep : runCands W H slices w h (n + 1) =
        candStep H h slices w (runCands W H slices w h n) n := by
      unfold runCands
      rw [List.range_succ, List.foldl_append]
      rfl
    set stn := runCands W H slices w h n with hstn
    rw [hstep]
    unfold candStep
    by_cases hel : candVal slices w n + h < H
    · rw [if_pos hel]
      by_cases hbetter : candVal slices w n < stn.2.2
      · rw [if_pos hbetter]
        refine ⟨by simp, ?_, ?_, ?_⟩
        · intro i hi
          simp at hi
          subst hi
          exact ⟨by omega, rfl, rfl, hel⟩
        · intro j hj helj
          show candVal slices w n ≤ candVal slices w j
          by_cases hjn : j = n
          · subst hjn
            exact le_refl _
          · have := ih2 j (by omega) helj
            omega
        · intro i hi j hj helj
          simp at hi
          subst hi
          show candVal slices w n < candVal slices w j
          have := ih2 j (by omega) helj
          omega
      · rw [if_neg hbetter]
        refine ⟨?_, ?_, ?_, ?_⟩
        · intro hn
          exact ih0 hn
        · intro i hi
          have := ih1 i hi
          exact ⟨by omega, this.2⟩
        · intro j hj helj
          by_cases hjn : j = n
          · subst hjn
            omega
          · exact ih2 j (by omega) helj
        · intro i hi j hj helj
          have hi1 := ih1 i hi
          exact ih3 i hi j hj helj
    · rw [if_neg hel]
      refine ⟨?_, ?_, ?_, ?_⟩
      · intro hn
        exact ih0 hn
      · intro i hi
        have := ih1 i hi
        exact ⟨by omega, this.2⟩
      · intro j hj helj
        by_cases hjn : j = n
        · subst hjn
          exact absurd helj hel
        · exact ih2 j (by omega) helj
      · intro i hi j hj helj
        exact ih3 i hi j hj helj

theorem foldMax_base_le (l : List Point) (acc : Nat) :
    acc ≤ l.foldl (fun a p => if p.y > a then p.y else a) acc := by
  induction l generalizing acc with
  | nil => exact le_refl _
  | cons p l ih =>
    show acc ≤ l.foldl _ (if p.y > acc then p.y else acc)
    have := ih (if p.y > acc then p.y else acc)
    have hbase : acc ≤ if p.y > acc then p.y else acc := by
      by_cases hp : p.y > acc
      · rw [if_pos hp]
        omega
      · rw [if_neg hp]
    omega

theorem mem_le_foldMax (l : List Point) (acc : Nat) (p : Point) (hp : p ∈ l) :
    p.y ≤ l.foldl (fun a p => if p.y > a then p.y else a) acc := by
  induction l generalizing acc with
  | nil => simp at hp
  | cons q l ih =>
    show p.y ≤ l.foldl _ (if q.y > acc then q.y else acc)
    rcases List.mem_cons.1 hp with h | h
    · subst h
      have h1 := foldMax_base_le l (if p.y > acc then p.y else acc)
      have h2 : p.y ≤ if p.y > acc then p.y else acc := by
        by_cases hc : p.y > acc
        · rw [if_pos hc]
        · rw [if_neg hc]
          omega
      omega
    · exact ih _ h

theorem foldMax_le (l : List Point) (acc z : Nat) (hacc : acc ≤ z)
    (hall : ∀ p ∈ l, p.y ≤ z) :
    l.foldl (fun a p => if p.y > a then p.y else a) acc ≤ z := by
  induction l generalizing acc with
  | nil => exact hacc
  | cons p l ih =>
    show l.foldl _ (if p.y > acc then p.y else acc) ≤ z
    have hbase : (if p.y > acc then p.y else acc) ≤ z := by
      by_cases hc : p.y > acc
      · rw [if_pos hc]
        exact hall p (by simp)
      · rw [if_neg hc]
        exact hacc
    exact ih _ hbase (fun q hq => hall q (by simp [hq]))

theorem ph_mem (l : List Point) (c : Nat) (hne : l ≠ []) :
    ∃ p ∈ l, profileHeight l c = p.y ∧ (p = l.headD ⟨0, 0⟩ ∨ p.x ≤ c) := by
  induction l with
  | nil => simp at hne
  | cons p l ih =>
    cases l with
    | nil => exact ⟨p, by simp, rfl, Or.inl rfl⟩
    | cons q l' =>
      by_cases hc : c < q.x
      · refine ⟨p, by simp, ?_, Or.inl rfl⟩
        show (if c < q.x then p.y else _) = p.y
        rw [if_pos hc]
      · obtain ⟨r, hr, heq, hcase⟩ := ih (by simp)
        refine ⟨r, by simp [List.mem_cons.1 hr], ?_, ?_⟩
        · show (if c < q.x then p.y else profileHeight (q :: l') c) = r.y
          rw [if_neg hc, heq]
        · rcases hcase with h | h
          · right
            have : r = q := h
            rw [this]
            omega
          · exact Or.inr h

theorem headD_drop (l : List Point) (i : Nat) (d : Point) :
    (l.drop i).headD d = l.getD i d := by
  induction l generalizing i with
  | nil => simp
  | cons a l ih =>
    cases i with
    | zero => rfl
    | succ i' => simpa using ih i'

theorem getD_zero_headD (l : List Point) (d : Point) : l.getD 0 d = l.headD d := by
  cases l <;> rfl

theorem mem_dropWhile_gt_le (l : List Point) (t : Nat) (hsort : sortedX l) :
    ∀ p ∈ l.dropWhile (fun p => p.x ≤ t), t < p.x := by
  induction l with
  | nil => simp
  | cons a l ih =>
    intro p hp
    rw [List.dropWhile_cons] at hp
    by_cases ha : a.x ≤ t
    · simp only [decide_eq_true_eq, ha, if_pos] at hp
      exact ih (List.Pairwise.of_cons hsort) p (by simpa using hp)
    · simp only [decide_eq_true_eq, ha, if_neg, if_false] at hp
      rcases List.mem_cons.1 hp with h | h
      · subst h
        omega
      · have hax : a.x < p.x := (List.pairwise_cons.1 hsort).1 p h
        omega

/-- Soundness of the candidate value: every column under the span of a
rectangle at slice start `i` has profile height at most the `highest`
the search computes there. -/
theorem candVal_sound (slices : List Point) (w : Nat) (i : Nat)
    (hsort : sortedX slices) (hhead : (slices.headD ⟨0, 0⟩).x = 0)
    (hi : i < slices.length) :
    ∀ c, (slices.getD i ⟨0, 0⟩).x ≤ c → c < (slices.getD i ⟨0, 0⟩).x + w →
      profileHeight slices c ≤ candVal slices w i := by
  intro c hc1 hc2
  have hw1 : 1 ≤ w := by omega
  have hBne : slices.drop i ≠ [] := by
    intro h0
    have := congrArg List.length h0
    simp at this
    omega
  have hsplit : slices.take i ++ slices.drop i = slices := List.take_append_drop i slices
  have hpw := List.pairwise_append.1 (hsplit ▸ hsort)
  have hphB : profileHeight slices c = profileHeight (slices.drop i) c := by
    conv_lhs => rw [← hsplit]
    apply ph_append_right _ _ c hBne
    · rw [headD_drop]
      omega
    · intro p hp
      have hmem0 : slices.getD i ⟨0, 0⟩ ∈ slices.drop i := by
        rw [← headD_drop slices i ⟨0, 0⟩, ← getD_zero_headD]
        exact getD_mem_of_lt _ 0 _ (by simp; omega)
      have := hpw.2.2 p hp (slices.getD i ⟨0, 0⟩) hmem0
      omega
  obtain ⟨p, hpB, heqp, hcasep⟩ := ph_mem (slices.drop i) c hBne
  rw [hphB, heqp]
  unfold candVal highestIn
  by_cases hph : p = (slices.drop i).headD ⟨0, 0⟩
  · rw [hph, headD_drop]
    exact foldMax_base_le _ _
  · rcases hcasep with h | hpc
    · exact absurd h hph
    -- p is a non-head element of the drop, with p.x ≤ c
    have hpt : p ∈ (slices.drop i).tail := by
      cases hBc : slices.drop i with
      | nil => exact absurd hBc hBne
      | cons b B' =>
        rw [hBc] at hpB hph
        rcases List.mem_cons.1 hpB with h | h
        · exfalso
          apply hph
          rw [h]
          rfl
        · simpa using h
    rw [List.tail_drop] at hpt
    have hwend_ge : i + 1 ≤ wend slices w i := by
      unfold wend
      by_cases hi0 : i = 0
      · rw [if_pos hi0]
        subst hi0
        refine le_length_takeWhile _ _ (⟨0, 0⟩ : Point) _ (by omega) ?_
        intro j hj
        have hj0 : j = 0 := by omega
        subst hj0
        rw [getD_zero_headD]
        simp only [decide_eq_true_eq]
        rw [getD_zero_headD] at hc1 hc2
        omega
      · rw [if_neg hi0]
        refine le_length_takeWhile _ _ (⟨0, 0⟩ : Point) _ (by omega) ?_
        intro j hj
        simp only [decide_eq_true_eq]
        by_cases hji : j = i
        · subst hji
          omega
        · have := sorted_getD_lt slices hsort j i ⟨0, 0⟩ (by omega) hi
          omega
    have hdecomp : slices.drop (i + 1) =
        (slices.drop (i + 1)).take (wend slices w i - (i + 1)) ++
          slices.drop (wend slices w i) := by
      conv_lhs => rw [← List.take_append_drop (wend slices w i - (i + 1))
        (slices.drop (i + 1))]
      rw [List.drop_drop]
      congr 1
      congr 1
      omega
    have hdropped : ∀ q ∈ slices.drop (wend slices w i), c < q.x := by
      intro q hq
      unfold wend at hq
      by_cases hi0 : i = 0
      · rw [if_pos hi0] at hq
        rw [← dropWhile_eq_drop_takeWhile] at hq
        have := mem_dropWhile_ge slices w hsort q hq
        rw [hi0] at hc2
        rw [getD_zero_headD] at hc2
        omega
      · rw [if_neg hi0] at hq
        rw [← dropWhile_eq_drop_takeWhile] at hq
        have := mem_dropWhile_gt_le slices ((slices.getD i ⟨0, 0⟩).x + w) hsort q hq
        omega
    have hpwin : p ∈ (slices.drop (i + 1)).take (wend slices w i - (i + 1)) := by
      rw [hdecomp] at hpt
      rcases List.mem_append.1 hpt with h | h
      · exact h
      · exact absurd (hdropped p h) (by omega)
    exact mem_le_foldMax _ _ p hpwin

/-- Exactness of the candidate value at positions whose window is not
inflated: when no breakpoint starts exactly at the candidate's right
edge (or the candidate is the first slice), the computed `highest` is
at most any height dominating all columns under the span. -/
theorem candVal_exact (slices : List Point) (w i : Nat)
    (hsort : sortedX slices) (hhead : (slices.headD ⟨0, 0⟩).x = 0)
    (hi : i < slices.length) (hw1 : 1 ≤ w)
    (hside : i = 0 ∨ ∀ r ∈ slices, r.x ≠ (slices.getD i ⟨0, 0⟩).x + w)
    (y' : Nat)
    (hy' : ∀ c, (slices.getD i ⟨0, 0⟩).x ≤ c → c < (slices.getD i ⟨0, 0⟩).x + w →
      profileHeight slices c ≤ y') :
    candVal slices w i ≤ y' := by
  have hdec : slices = slices.take i ++ slices.getD i ⟨0, 0⟩ :: slices.drop (i + 1) := by
    rw [getD_eq_getElem _ _ _ hi]
    conv_lhs => rw [← List.take_append_drop i slices]
    congr 1
    exact List.drop_eq_getElem_cons hi
  unfold candVal highestIn
  apply foldMax_le
  · have hkey : profileHeight slices ((slices.getD i ⟨0, 0⟩).x) =
        (slices.getD i ⟨0, 0⟩).y := by
      have hsort2 : sortedX (slices.take i ++
          slices.getD i ⟨0, 0⟩ :: slices.drop (i + 1)) := by
        rw [← hdec]
        exact hsort
      have h2 := ph_at_slice_start (slices.take i) (slices.drop (i + 1))
        (slices.getD i ⟨0, 0⟩) hsort2
      rw [← hdec] at h2
      exact h2
    have := hy' ((slices.getD i ⟨0, 0⟩).x) (le_refl _) (by omega)
    omega
  · intro q hq
    have hqdrop : q ∈ slices.drop (i + 1) := (List.take_sublist _ _).subset hq
    have hqslices : q ∈ slices := (List.drop_sublist _ _).subset hqdrop
    have hmem_take : slices.getD i ⟨0, 0⟩ ∈ slices.take (i + 1) := by
      have hlen : i < (slices.take (i + 1)).length := by
        simp
        omega
      have hgt : (slices.take (i + 1))[i] = slices[i] := List.getElem_take slices
      rw [getD_eq_getElem _ _ _ hi, ← hgt]
      exact List.getElem_mem hlen
    have hxi_lt : (slices.getD i ⟨0, 0⟩).x < q.x := by
      have hsort3 : List.Pairwise (fun p q => p.x < q.x)
          (slices.take (i + 1) ++ slices.drop (i + 1)) := by
        rw [List.take_append_drop]
        exact hsort
      have hpw := List.pairwise_append.1 hsort3
      exact hpw.2.2 _ hmem_take q hqdrop
    have hqtw : q.x < (slices.getD i ⟨0, 0⟩).x + w := by
      have hwin_sub : (slices.drop (i + 1)).take (wend slices w i - (i + 1)) =
          (slices.take (wend slices w i)).drop (i + 1) := by
        rw [List.drop_take]
      rw [hwin_sub] at hq
      have hqtake : q ∈ slices.take (wend slices w i) :=
        (List.drop_sublist _ _).subset hq
      unfold wend at hqtake
      by_cases hi0 : i = 0
      · rw [if_pos hi0] at hqtake
        rw [(List.prefix_iff_eq_take.1 (List.takeWhile_prefix _)).symm] at hqtake
        have := List.mem_takeWhile_imp hqtake
        simp only [decide_eq_true_eq] at this
        rw [hi0, getD_zero_headD]
        omega
      · rw [if_neg hi0] at hqtake
        rw [(List.prefix_iff_eq_take.1 (List.takeWhile_prefix _)).symm] at hqtake
        have := List.mem_takeWhile_imp hqtake
        simp only [decide_eq_true_eq] at this
        rcases hside with h0 | hne
        · exact absurd h0 hi0
        · have := hne q hqslices
          omega
    obtain ⟨s, t, hst⟩ := List.append_of_mem hqslices
    have hphq : profileHeight slices q.x = q.y := by
      have hsort4 : sortedX (s ++ q :: t) := by
        rw [← hst]
        exact hsort
      have h2 := ph_at_slice_start s t q hsort4
      rw [← hst] at h2
      exact h2
    have := hy' q.x (by omega) hqtw
    omega

theorem findLoop_unfold (W H : Nat) (slices : List Point) (w h : Nat)
    (left right : Nat) (bIdx : Option Nat) (bY bS : Nat)
    (hr : right ≤ slices.length) :
    findLoop W H slices w h left right bIdx bY bS =
      (if left + 1 ≥ slices.length then
        ((if highestIn slices left right + h < H then
            if highestIn slices left right < bS then
              (some left, highestIn slices left right, highestIn slices left right)
            else (bIdx, bY, bS)
          else (bIdx, bY, bS)).1,
         (if highestIn slices left right + h < H then
            if highestIn slices left right < bS then
              (some left, highestIn slices left right, highestIn slices left right)
            else (bIdx, bY, bS)
          else (bIdx, bY, bS)).2.1)
      else if advanceRight W slices ((slices.getD (left + 1) ⟨0, 0⟩).x + w) right >
          slices.length then
        ((if highestIn slices left right + h < H then
            if highestIn slices left right < bS then
              (some left, highestIn slices left right, highestIn slices left right)
            else (bIdx, bY, bS)
          else (bIdx, bY, bS)).1,
         (if highestIn slices left right + h < H then
            if highestIn slices left right < bS then
              (some left, highestIn slices left right, highestIn slices left right)
            else (bIdx, bY, bS)
          else (bIdx, bY, bS)).2.1)
      else
        findLoop W H slices w h (left + 1)
          (advanceRight W slices ((slices.getD (left + 1) ⟨0, 0⟩).x + w) right)
          (if highestIn slices left right + h < H then
            if highestIn slices left right < bS then
              (some left, highestIn slices left right, highestIn slices left right)
            else (bIdx, bY, bS)
          else (bIdx, bY, bS)).1
          (if highestIn slices left right + h < H then
            if highestIn slices left right < bS then
              (some left, highestIn slices left right, highestIn slices left right)
            else (bIdx, bY, bS)
          else (bIdx, bY, bS)).2.1
          (if highestIn slices left right + h < H then
            if highestIn slices left right < bS then
              (some left, highestIn slices left right, highestIn slices left right)
            else (bIdx, bY, bS)
          else (bIdx, bY, bS)).2.2) := by
  rw [findLoop, dif_pos hr]
  rfl

/-- Any placement height the loop returns was recorded under the strict
area-height check. -/
theorem findLoop_height_bound (W H : Nat) (slices : List Point) (w h : Nat) :
    ∀ fuel left right bIdx bY bS,
      slices.length - left < fuel →
      (bIdx = none ∨ bY + h < H) →
      ∀ i y, findLoop W H slices w h left right bIdx bY bS = (some i, y) →
        y + h < H := by
  intro fuel
  induction fuel with
  | zero =>
    intro left right bIdx bY bS h1
    omega
  | succ f ih =>
    intro left right bIdx bY bS h1 hbest i y hres
    by_cases hr : right ≤ slices.length
    swap
    · rw [findLoop, dif_neg hr] at hres
      have e1 : bIdx = some i := congrArg Prod.fst hres
      have e2 : bY = y := congrArg Prod.snd hres
      rcases hbest with h0 | h0
      · rw [h0] at e1
        exact absurd e1 (by simp)
      · omega
    · rw [findLoop_unfold W H slices w h left right bIdx bY bS hr] at hres
      by_cases hc1 : highestIn slices left right + h < H
      · rw [if_pos hc1] at hres
        by_cases hc2 : highestIn slices left right < bS
        · rw [if_pos hc2] at hres
          by_cases hl : left + 1 ≥ slices.length
          · rw [if_pos hl] at hres
            have e2 : highestIn slices left right = y := congrArg Prod.snd hres
            omega
          · rw [if_neg hl] at hres
            by_cases hadv : advanceRight W slices
                ((slices.getD (left + 1) ⟨0, 0⟩).x + w) right > slices.length
            · rw [if_pos hadv] at hres
              have e2 : highestIn slices left right = y := congrArg Prod.snd hres
              omega
            · rw [if_neg hadv] at hres
              exact ih (left + 1) _ _ _ _ (by omega) (Or.inr hc1) i y hres
        · rw [if_neg hc2] at hres
          by_cases hl : left + 1 ≥ slices.length
          · rw [if_pos hl] at hres
            have e1 : bIdx = some i := congrArg Prod.fst hres
            have e2 : bY = y := congrArg Prod.snd hres
            rcases hbest with h0 | h0
            · rw [h0] at e1
              exact absurd e1 (by simp)
            · omega
          · rw [if_neg hl] at hres
            by_cases hadv : advanceRight W slices
                ((slices.getD (left + 1) ⟨0, 0⟩).x + w) right > slices.length
            · rw [if_pos hadv] at hres
              have e1 : bIdx = some i := congrArg Prod.fst hres
              have e2 : bY = y := congrArg Prod.snd hres
              rcases hbest with h0 | h0
              · rw [h0] at e1
                exact absurd e1 (by simp)
              · omega
            · rw [if_neg hadv] at hres
              exact ih (left + 1) _ _ _ _ (by omega) hbest i y hres
      · rw [if_neg hc1] at hres
        by_cases hl : left + 1 ≥ slices.length
        · rw [if_pos hl] at hres
          have e1 : bIdx = some i := congrArg Prod.fst hres
          have e2 : bY = y := congrArg Prod.snd hres
          rcases hbest with h0 | h0
          · rw [h0] at e1
            exact absurd e1 (by simp)
          · omega
        · rw [if_neg hl] at hres
          by_cases hadv : advanceRight W slices
              ((slices.getD (left + 1) ⟨0, 0⟩).x + w) right > slices.length
          · rw [if_pos hadv] at hres
            have e1 : bIdx = some i := congrArg Prod.fst hres
            have e2 : bY = y := congrArg Prod.snd hres
            rcases hbest with h0 | h0
            · rw [h0] at e1
              exact absurd e1 (by simp)
            · omega
          · rw [if_neg hadv] at hres
            exact ih (left + 1) _ _ _ _ (by omega) hbest i y hres

/-- Any slice index the loop returns is an index of the slice list. -/
theorem findLoop_idx_bound (W H : Nat) (slices : List Point) (w h : Nat) :
    ∀ fuel left right bIdx bY bS,
      slices.length - left < fuel →
      left < slices.length →
      (∀ i0, bIdx = some i0 → i0 < slices.length) →
      ∀ i y, findLoop W H slices w h left right bIdx bY bS = (some i, y) →
        i < slices.length := by
  intro fuel
  induction fuel with
  | zero =>
    intro left right bIdx bY bS h1
    omega
  | succ f ih =>
    intro left right bIdx bY bS h1 hleft hbest i y hres
    by_cases hr : right ≤ slices.length
    swap
    · rw [findLoop, dif_neg hr] at hres
      have e1 : bIdx = some i := congrArg Prod.fst hres
      exact hbest i e1
    · rw [findLoop_unfold W H slices w h left right bIdx bY bS hr] at hres
      have hprop : ∀ i0, (if highestIn slices left right + h < H then
          if highestIn slices left right < bS then
            (some left, highestIn slices left right, highestIn slices left right)
          else (bIdx, bY, bS)
        else (bIdx, bY, bS)).1 = some i0 → i0 < slices.length := by
        intro i0 h0
        by_cases hc1 : highestIn slices left right + h < H
        · rw [if_pos hc1] at h0
          by_cases hc2 : highestIn slices left right < bS
          · rw [if_pos hc2] at h0
            have : some left = some i0 := h0
            injection this with e
            omega
          · rw [if_neg hc2] at h0
            exact hbest i0 h0
        · rw [if_neg hc1] at h0
          exact hbest i0 h0
      by_cases hl : left + 1 ≥ slices.length
      · rw [if_pos hl] at hres
        exact hprop i (congrArg Prod.fst hres)
      · rw [if_neg hl] at hres
        by_cases hadv : advanceRight W slices
            ((slices.getD (left + 1) ⟨0, 0⟩).x + w) right > slices.length
        · rw [if_pos hadv] at hres
          exact hprop i (congrArg Prod.fst hres)
        · rw [if_neg hadv] at hres
          exact ih (left + 1) _ _ _ _ (by omega) (by omega) hprop i y hres

theorem tryFind_success (p : CygonRectanglePacker) (w h : Nat) (pt : Point)
    (hsort : sortedX p.heightSlices)
    (hxW : ∀ q ∈ p.heightSlices, q.x < p.packingAreaWidth)
    (hne : p.heightSlices ≠ []) (hw : w ≤ p.packingAreaWidth)
    (hfind : tryFindBestPlacement p w h = some pt) :
    ∃ i, i < stopIdx p.packingAreaWidth p.heightSlices w ∧
      i < p.heightSlices.length ∧
      pt.x = (p.heightSlices.getD i ⟨0, 0⟩).x ∧
      pt.y = candVal p.heightSlices w i ∧
      candVal p.heightSlices w i + h < p.packingAreaHeight ∧
      (∀ j, j < stopIdx p.packingAreaWidth p.heightSlices w →
        candVal p.heightSlices w j + h < p.packingAreaHeight →
        pt.y ≤ candVal p.heightSlices w j) ∧
      (∀ j, j < i → candVal p.heightSlices w j + h < p.packingAreaHeight →
        pt.y < candVal p.heightSlices w j) := by
  rw [tryFindBestPlacement_eq p w h hsort hxW hne hw] at hfind
  obtain ⟨h0, h1, h2, h3⟩ := runCands_spec p.packingAreaWidth p.packingAreaHeight
    p.heightSlices w h (stopIdx p.packingAreaWidth p.heightSlices w)
  cases hR : runCands p.packingAreaWidth p.packingAreaHeight p.heightSlices w h
      (stopIdx p.packingAreaWidth p.heightSlices w) with
  | mk b rest =>
    rw [hR] at hfind h0 h1 h2 h3
    cases b with
    | none => simp at hfind
    | some i =>
      simp only at hfind
      have hpt : pt = ⟨(p.heightSlices.getD i ⟨0, 0⟩).x, rest.1⟩ := by
        injection hfind with e
        exact e.symm
      obtain ⟨hi1, hi2, hi3, hi4⟩ := h1 i rfl
      have hi2' : rest.1 = candVal p.heightSlices w i := hi2
      have hi3' : rest.2 = candVal p.heightSlices w i := hi3
      have hy : pt.y = rest.1 := by rw [hpt]
      have hstople : stopIdx p.packingAreaWidth p.heightSlices w ≤
          p.heightSlices.length := stopIdx_le _ _ _ hne
      refine ⟨i, hi1, by omega, by rw [hpt], by omega, hi4, ?_, ?_⟩
      · intro j hj helj
        have h2' : rest.2 ≤ candVal p.heightSlices w j := h2 j hj helj
        omega
      · intro j hj helj
        have h3' : rest.2 < candVal p.heightSlices w j := h3 i rfl j hj helj
        omega

theorem TryPack_some (p : CygonRectanglePacker) (w h : Nat) (pt : Point)
    (p' : CygonRectanglePacker)
    (hTP : TryPack p w h = (some pt, p')) :
    w ≤ p.packingAreaWidth ∧ h ≤ p.packingAreaHeight ∧
    tryFindBestPlacement p w h = some pt ∧
    p' = { p with heightSlices :=
      integrateRectangle p.packingAreaWidth p.heightSlices pt.x w (pt.y + h) } := by
  unfold TryPack at hTP
  by_cases hd : w > p.packingAreaWidth ∨ h > p.packingAreaHeight
  · rw [if_pos hd] at hTP
    have := congrArg Prod.fst hTP
    simp at this
  · rw [if_neg hd] at hTP
    push_neg at hd
    cases hfind : tryFindBestPlacement p w h with
    | none =>
      rw [hfind] at hTP
      have := congrArg Prod.fst hTP
      simp at this
    | some pt2 =>
      rw [hfind] at hTP
      have e1 : some pt2 = some pt := congrArg Prod.fst hTP
      injection e1 with e1
      subst e1
      have e2 := congrArg Prod.snd hTP
      exact ⟨hd.1, hd.2, rfl, e2.symm⟩

/-- Everything a successful `TryPack` call guarantees: the area fields
are unchanged, well-formedness is preserved, the placement is valid
(inside the area, strictly above the old silhouette columns it covers),
and the new silhouette is the old one with the rectangle's span raised
to its top. -/
theorem TryPack_step (p : CygonRectanglePacker) (w h : Nat) (pt : Point)
    (p' : CygonRectanglePacker)
    (hInv : Inv p.packingAreaWidth p.packingAreaHeight p.heightSlices)
    (hw1 : 1 ≤ w)
    (hTP : TryPack p w h = (some pt, p')) :
    p'.packingAreaWidth = p.packingAreaWidth ∧
    p'.packingAreaHeight = p.packingAreaHeight ∧
    Inv p.packingAreaWidth p.packingAreaHeight p'.heightSlices ∧
    pt.x + w ≤ p.packingAreaWidth ∧ pt.y + h < p.packingAreaHeight ∧
    (∀ c, pt.x ≤ c → c < pt.x + w → profileHeight p.heightSlices c ≤ pt.y) ∧
    (∀ c, c < p.packingAreaWidth →
      profileHeight p'.heightSlices c =
        if pt.x ≤ c ∧ c < pt.x + w then pt.y + h
        else profileHeight p.heightSlices c) := by
  obtain ⟨hwle, hhle, hfind, hp'⟩ := TryPack_some p w h pt p' hTP
  obtain ⟨hne, hh, hsort, hWH⟩ := hInv
  have hxW : ∀ q ∈ p.heightSlices, q.x < p.packingAreaWidth :=
    fun q hq => (hWH q hq).1
  obtain ⟨i, histop, hilen, hptx, hpty, hcandH, hmin, hfirst⟩ :=
    tryFind_success p w h pt hsort hxW hne hwle hfind
  have hxw_le : pt.x + w ≤ p.packingAreaWidth := by
    by_cases hi0 : i = 0
    · subst hi0
      rw [hptx, getD_zero_headD, hh]
      omega
    · have := stopIdx_mem p.packingAreaWidth p.heightSlices w i (by omega) histop
      omega
  have hyh : pt.y + h < p.packingAreaHeight := by omega
  have hcov : ∀ c, pt.x ≤ c → c < pt.x + w →
      profileHeight p.heightSlices c ≤ pt.y := by
    intro c hc1 hc2
    rw [hpty]
    exact candVal_sound p.heightSlices w i hsort hh hilen c (hptx ▸ hc1) (hptx ▸ hc2)
  have hInv2 : Inv p.packingAreaWidth p.packingAreaHeight p'.heightSlices := by
    rw [hp']
    exact integrate_preserves_inv p.packingAreaWidth p.packingAreaHeight
      p.heightSlices pt.x w (pt.y + h) ⟨hne, hh, hsort, hWH⟩ hw1 hxw_le (by omega)
  obtain ⟨P, t, T, hdec, ht⟩ :
      ∃ P t T, p.heightSlices = P ++ t :: T ∧ t = p.heightSlices.getD i ⟨0, 0⟩ := by
    refine ⟨p.heightSlices.take i, p.heightSlices.getD i ⟨0, 0⟩,
      p.heightSlices.drop (i + 1), ?_, rfl⟩
    rw [getD_eq_getElem _ _ _ hilen]
    conv_lhs => rw [← List.take_append_drop i p.heightSlices]
    congr 1
    exact List.drop_eq_getElem_cons hilen
  have hsort2 : sortedX (P ++ t :: T) := by
    rw [← hdec]
    exact hsort
  have hP : ∀ q ∈ P, q.x < t.x :=
    fun q hq => (List.pairwise_append.1 hsort2).2.2 q hq t (by simp)
  have hT : ∀ q ∈ T, t.x < q.x :=
    fun q hq => (List.pairwise_cons.1 (List.pairwise_append.1 hsort2).2.1).1 q hq
  have hhead2 : ((P ++ t :: T).headD ⟨0, 0⟩).x = 0 := by
    rw [← hdec]
    exact hh
  have hinteq : integrateRectangle p.packingAreaWidth p.heightSlices pt.x w
      (pt.y + h) = P ++ ⟨t.x, pt.y + h⟩ :: integTail p.packingAreaWidth t.y
        (t.x + w) T := by
    have htx : pt.x = t.x := by rw [hptx, ht]
    rw [htx]
    conv_lhs => rw [hdec]
    exact integrate_eq_hit p.packingAreaWidth P t T w (pt.y + h) hP hT
  refine ⟨by rw [hp'], by rw [hp'], hInv2, hxw_le, hyh, hcov, ?_⟩
  intro c hc
  have htx : pt.x = t.x := by rw [hptx, ht]
  have hphi := ph_integrate_hit p.packingAreaWidth P t T w (pt.y + h) hw1 hsort2
    hhead2 c hc
  rw [hp']
  show profileHeight (integrateRectangle p.packingAreaWidth p.heightSlices pt.x w
    (pt.y + h)) c = _
  rw [hinteq, hphi, ← hdec, ← htx]

theorem TryPack_fail_atomic (p : CygonRectanglePacker) (w h : Nat)
    (hfail : (TryPack p w h).1 = none) :
    (TryPack p w h).2 = p := by
  unfold TryPack at *
  by_cases hd : w > p.packingAreaWidth ∨ h > p.packingAreaHeight
  · simp [hd]
  · simp only [if_neg hd] at hfail ⊢
    cases hfind : tryFindBestPlacement p w h with
    | none => simp [hfind]
    | some pt => simp [hfind] at hfail

theorem runPacker_aux (W H : Nat) :
    ∀ (reqs : List (Nat × Nat)) (p : CygonRectanglePacker),
      p.packingAreaWidth = W → p.packingAreaHeight = H →
      (∀ r ∈ reqs, 1 ≤ r.1 ∧ 1 ≤ r.2) →
      Inv W H p.heightSlices →
      (∀ b ∈ (runPacker p reqs).2,
        b.x + b.w ≤ W ∧
        (∀ c, b.x ≤ c → c < b.x + b.w → profileHeight p.heightSlices c ≤ b.y)) ∧
      (runPacker p reqs).2.Pairwise
        (fun b1 b2 => ∀ px py, ¬ (inBox b1 px py ∧ inBox b2 px py)) ∧
      Inv W H (runPacker p reqs).1.heightSlices := by
  intro reqs
  induction reqs with
  | nil =>
    intro p hpW hpH hreq hInv
    refine ⟨by simp [runPacker], by simp [runPacker], by simpa [runPacker] using hInv⟩
  | cons r rest ih =>
    intro p hpW hpH hreq hInv
    obtain ⟨w, h⟩ := r
    have hw1 : 1 ≤ w := (hreq (w, h) (by simp)).1
    have hh1 : 1 ≤ h := (hreq (w, h) (by simp)).2
    have hreq' : ∀ r ∈ rest, 1 ≤ r.1 ∧ 1 ≤ r.2 :=
      fun r hr => hreq r (by simp [hr])
    cases hTP : TryPack p w h with
    | mk o p2 =>
      cases o with
      | none =>
        have hp2 : p2 = p := by
          have h5 := TryPack_fail_atomic p w h (by rw [hTP])
          rw [hTP] at h5
          exact h5
        have hrun : runPacker p ((w, h) :: rest) = runPacker p rest := by
          show (match TryPack p w h with
            | (some pt, p') =>
              let r := runPacker p' rest
              (r.1, (⟨pt.x, pt.y, w, h⟩ : Box) :: r.2)
            | (none, p') => runPacker p' rest) = runPacker p rest
          rw [hTP, hp2]
        rw [hrun]
        exact ih p hpW hpH hreq' hInv
      | some pt =>
        have hInv' : Inv p.packingAreaWidth p.packingAreaHeight p.heightSlices := by
          rw [hpW, hpH]
          exact hInv
        obtain ⟨hf1, hf2, hInv2, hxw, hyh, hcov, hph⟩ :=
          TryPack_step p w h pt p2 hInv' hw1 hTP
        have hrun : runPacker p ((w, h) :: rest) =
            ((runPacker p2 rest).1,
              (⟨pt.x, pt.y, w, h⟩ : Box) :: (runPacker p2 rest).2) := by
          show (match TryPack p w h with
            | (some pt, p') =>
              let r := runPacker p' rest
              (r.1, (⟨pt.x, pt.y, w, h⟩ : Box) :: r.2)
            | (none, p') => runPacker p' rest) = _
          rw [hTP]
        rw [hrun]
        have hih := ih p2 (by rw [hf1, hpW]) (by rw [hf2, hpH]) hreq'
          (by rw [← hpW, ← hpH]; exact hInv2)
        obtain ⟨ihb, ihp, ihInv⟩ := hih
        have hmono : ∀ c, c < W → profileHeight p.heightSlices c ≤
            profileHeight p2.heightSlices c := by
          intro c hc
          rw [hph c (by rw [hpW]; exact hc)]
          by_cases hcs : pt.x ≤ c ∧ c < pt.x + w
          · rw [if_pos hcs]
            have := hcov c hcs.1 hcs.2
            omega
          · rw [if_neg hcs]
        refine ⟨?_, ?_, ihInv⟩
        · intro b hb
          rcases List.mem_cons.1 hb with h0 | h0
          · subst h0
            refine ⟨by rw [← hpW]; exact hxw, ?_⟩
            intro c hc1 hc2
            exact hcov c hc1 hc2
          · obtain ⟨hbw, hbcov⟩ := ihb b h0
            refine ⟨hbw, ?_⟩
            intro c hc1 hc2
            have h1 := hbcov c hc1 hc2
            have h2 := hmono c (by omega)
            omega
        · refine List.pairwise_cons.2 ⟨?_, ihp⟩
          intro b hb px py hcontra
          obtain ⟨hin0, hinb⟩ := hcontra
          obtain ⟨h01, h02, h03, h04⟩ := hin0
          have e1 : pt.x ≤ px := h01
          have e2 : px < pt.x + w := h02
          have e3 : pt.y ≤ py := h03
          have e4 : py < pt.y + h := h04
          obtain ⟨hb1, hb2, hb3, hb4⟩ := hinb
          obtain ⟨hbw, hbcov⟩ := ihb b hb
          have hphx : profileHeight p2.heightSlices px = pt.y + h := by
            have hW' : px < p.packingAreaWidth := by
              rw [hpW] at hxw ⊢
              omega
            have h6 := hph px hW'
            rw [h6]
            rw [if_pos ⟨e1, e2⟩]
          have h7 := hbcov px hb1 hb2
          rw [hphx] at h7
          omega

theorem TryPack_dim_reject (p : CygonRectanglePacker) (w h : Nat)
    (hwh : w > p.packingAreaWidth ∨ h > p.packingAreaHeight) :
    TryPack p w h = (none, p) := by
  unfold TryPack
  simp [hwh]

theorem runPacker_empty_area (reqs : List (Nat × Nat)) :
    ∀ (p : CygonRectanglePacker), p.packingAreaWidth = 0 →
      (∀ r ∈ reqs, 1 ≤ r.1) →
      runPacker p reqs = (p, []) := by
  induction reqs with
  | nil =>
    intro p h0 hreq
    rfl
  | cons r rest ih =>
    intro p h0 hreq
    obtain ⟨w, h⟩ := r
    have hTP : TryPack p w h = (none, p) := by
      apply TryPack_dim_reject
      left
      have := hreq (w, h) (by simp)
      omega
    show (match TryPack p w h with
      | (some pt, p') =>
        let r := runPacker p' rest
        (r.1, (⟨pt.x, pt.y, w, h⟩ : Box) :: r.2)
      | (none, p') => runPacker p' rest) = (p, [])
    rw [hTP]
    exact ih p h0 (fun r hr => hreq r (by simp [hr]))

/-- The breakpoints of a well-formed profile partition the area width:
every column lies in exactly one slice's span. -/
theorem spans_partition (W H : Nat) (s : List Point) (hInv : Inv W H s) :
    ∀ c, c < W →
      ∃! i, i < s.length ∧ (s.getD i ⟨0, 0⟩).x ≤ c ∧ c < nextX s W i := by
  obtain ⟨hne, hh, hsort, hWH⟩ := hInv
  intro c hc
  have hlen1 : 1 ≤ s.length := List.length_pos.2 hne
  set k := (s.takeWhile (fun p => p.x ≤ c)).length with hk
  have hkle : k ≤ s.length := (List.takeWhile_sublist _).length_le
  have hk1 : 1 ≤ k := by
    refine le_length_takeWhile _ _ (⟨0, 0⟩ : Point) 1 (by omega) ?_
    intro j hj
    have hj0 : j = 0 := by omega
    subst hj0
    rw [getD_zero_headD]
    simp only [decide_eq_true_eq]
    omega
  have hcover : (s.getD (k - 1) ⟨0, 0⟩).x ≤ c := by
    have h1 := takeWhile_pred_of_lt (fun p => p.x ≤ c) s ⟨0, 0⟩ (k - 1) (by omega)
    simp only [decide_eq_true_eq] at h1
    exact h1
  have hnext : c < nextX s W (k - 1) := by
    unfold nextX
    by_cases hklen : k - 1 + 1 < s.length
    · rw [if_pos hklen]
      have hkidx : k - 1 + 1 = k := by omega
      rw [hkidx]
      have h1 := takeWhile_pred_at_end (fun p => p.x ≤ c) s ⟨0, 0⟩ (by omega)
      rw [← hk] at h1
      simp only [decide_eq_false_iff_not] at h1
      omega
    · rw [if_neg hklen]
      exact hc
  refine ⟨k - 1, ⟨by omega, hcover, hnext⟩, ?_⟩
  intro j hj
  obtain ⟨hj1, hj2, hj3⟩ := hj
  by_contra hne2
  by_cases hlt : j < k - 1
  · have hj1lt : j + 1 ≤ k - 1 := by omega
    have hnx : nextX s W j = (s.getD (j + 1) ⟨0, 0⟩).x := by
      unfold nextX
      rw [if_pos (by omega)]
    have hle : (s.getD (j + 1) ⟨0, 0⟩).x ≤ (s.getD (k - 1) ⟨0, 0⟩).x := by
      by_cases he : j + 1 = k - 1
      · rw [he]
      · have := sorted_getD_lt s hsort (j + 1) (k - 1) ⟨0, 0⟩ (by omega) (by omega)
        omega
    rw [hnx] at hj3
    omega
  · have hgt : k ≤ j := by omega
    have hklen : k < s.length := by omega
    have hkgt : c < (s.getD k ⟨0, 0⟩).x := by
      have h1 := takeWhile_pred_at_end (fun p => p.x ≤ c) s ⟨0, 0⟩ (by omega)
      rw [← hk] at h1
      simp only [decide_eq_false_iff_not] at h1
      omega
    have hle : (s.getD k ⟨0, 0⟩).x ≤ (s.getD j ⟨0, 0⟩).x := by
      by_cases he : k = j
      · rw [he]
      · have := sorted_getD_lt s hsort k j ⟨0, 0⟩ (by omega) hj1
        omega
    omega

/-- C7: a successful `TryPack` never places a rectangle whose bottom edge
lands exactly on the area boundary: the returned `(x, y)` always satisfies
`y + h` strictly below `packingAreaHeight`, for every profile state. -/
theorem c7_bottom_strictly_below (p : CygonRectanglePacker) (w h : Nat)
    (pt : Point) (p' : CygonRectanglePacker)
    (hTP : TryPack p w h = (some pt, p')) :
    pt.y + h < p.packingAreaHeight := by
  obtain ⟨_, _, hfind, _⟩ := TryPack_some p w h pt p' hTP
  unfold tryFindBestPlacement at hfind
  cases hfl : findLoop p.packingAreaWidth p.packingAreaHeight p.heightSlices w h 0
      (bisectLeft p.heightSlices w) none 0
      (p.packingAreaWidth * p.packingAreaHeight) with
  | mk b y =>
    simp only [hfl] at hfind
    cases b with
    | none => simp at hfind
    | some i =>
      simp only at hfind
      have hpty : pt.y = y := by
        injection hfind with e
        rw [← e]
      rw [hpty]
      exact findLoop_height_bound p.packingAreaWidth p.packingAreaHeight
        p.heightSlices w h (p.heightSlices.length + 1) 0 _ none 0 _
        (by omega) (Or.inl rfl) i y hfl

/-- C10: whenever `TryPack` succeeds on a packer with a nonempty profile,
the returned x-coordinate equals the x-coordinate of some breakpoint of the
profile as it was before the call; in particular the first successful
placement on a freshly constructed packer is at `(0, 0)`. -/
theorem c10_placement_x_is_breakpoint :
    (∀ (p : CygonRectanglePacker) (w h : Nat) (pt : Point)
      (p' : CygonRectanglePacker), p.heightSlices ≠ [] →
      TryPack p w h = (some pt, p') → ∃ q ∈ p.heightSlices, pt.x = q.x) ∧
    (∀ (W H w h : Nat) (pt : Point) (p' : CygonRectanglePacker),
      TryPack (mkPacker W H) w h = (some pt, p') → pt = ⟨0, 0⟩) := by
  constructor
  · intro p w h pt p' hne hTP
    obtain ⟨_, _, hfind, _⟩ := TryPack_some p w h pt p' hTP
    unfold tryFindBestPlacement at hfind
    cases hfl : findLoop p.packingAreaWidth p.packingAreaHeight p.heightSlices w h 0
        (bisectLeft p.heightSlices w) none 0
        (p.packingAreaWidth * p.packingAreaHeight) with
    | mk b y =>
      simp only [hfl] at hfind
      cases b with
      | none => simp at hfind
      | some i =>
        simp only at hfind
        have hptx : pt.x = (p.heightSlices.getD i ⟨0, 0⟩).x := by
          injection hfind with e
          rw [← e]
        have hilen : i < p.heightSlices.length :=
          findLoop_idx_bound p.packingAreaWidth p.packingAreaHeight
            p.heightSlices w h (p.heightSlices.length + 1) 0 _ none 0 _
            (by omega) (List.length_pos.2 hne) (by simp) i y hfl
        exact ⟨p.heightSlices.getD i ⟨0, 0⟩,
          getD_mem_of_lt _ i ⟨0, 0⟩ hilen, hptx⟩
  · intro W H w h pt p' hTP
    obtain ⟨_, _, hfind, _⟩ := TryPack_some _ w h pt p' hTP
    unfold tryFindBestPlacement at hfind
    have hslices : (mkPacker W H).heightSlices = [⟨0, 0⟩] := rfl
    have hbis : bisectLeft (mkPacker W H).heightSlices w ≤ 1 := by
      rw [hslices, bisectLeft_eq_takeWhile]
      exact le_trans (List.takeWhile_sublist _).length_le (by simp)
    have hlen : (mkPacker W H).heightSlices.length = 1 := rfl
    have hhi : highestIn (mkPacker W H).heightSlices 0
        (bisectLeft (mkPacker W H).heightSlices w) = 0 := by
      unfold highestIn
      rw [hslices]
      simp
    cases hfl : findLoop (mkPacker W H).packingAreaWidth
        (mkPacker W H).packingAreaHeight (mkPacker W H).heightSlices w h 0
        (bisectLeft (mkPacker W H).heightSlices w) none 0
        ((mkPacker W H).packingAreaWidth * (mkPacker W H).packingAreaHeight) with
    | mk b y =>
      simp only [hfl] at hfind
      cases b with
      | none => simp at hfind
      | some i =>
        simp only at hfind
        rw [findLoop_unfold _ _ _ w h 0 _ none 0 _ (by omega)] at hfl
        rw [if_pos (by omega)] at hfl
        rw [hhi] at hfl
        by_cases hc1 : 0 + h < (mkPacker W H).packingAreaHeight
        · rw [if_pos hc1] at hfl
          by_cases hc2 : 0 < (mkPacker W H).packingAreaWidth *
              (mkPacker W H).packingAreaHeight
          · rw [if_pos hc2] at hfl
            simp only at hfl
            injection hfl with e1 e2
            injection e1 with e1
            injection hfind with e
            rw [← e, ← e1, ← e2]
            rfl
          · rw [if_neg hc2] at hfl
            simp at hfl
        · rw [if_neg hc1] at hfl
          simp at hfl

/-- C2: for any sequence of `TryPack` requests (with positive dimensions)
on a fresh packer, the boxes committed by the successful calls are pairwise
disjoint. -/
theorem c2_no_overlap (W H : Nat) (reqs : List (Nat × Nat))
    (hreq : ∀ r ∈ reqs, 1 ≤ r.1 ∧ 1 ≤ r.2) :
    (runPacker (mkPacker W H) reqs).2.Pairwise
      (fun b1 b2 => ∀ px py, ¬ (inBox b1 px py ∧ inBox b2 px py)) := by
  by_cases hW : 1 ≤ W
  · exact (runPacker_aux W H reqs (mkPacker W H) rfl rfl hreq
      (inv_mkPacker W H hW)).2.1
  · rw [runPacker_empty_area reqs (mkPacker W H)
      (show W = 0 by omega) (fun r hr => (hreq r hr).1)]
    exact List.Pairwise.nil

theorem c2_no_overlap_witness :
    (runPacker (mkPacker 10 10) [(4, 3), (4, 3), (4, 3)]).2.Pairwise
      (fun b1 b2 => ∀ px py, ¬ (inBox b1 px py ∧ inBox b2 px py)) :=
  c2_no_overlap 10 10 [(4, 3), (4, 3), (4, 3)] (by decide)

/-- C6: the initial profile and every profile reachable by a sequence of
`TryPack` calls (with positive dimensions) is well formed - nonempty,
first breakpoint at `x = 0`, strictly increasing x-values, heights at most
`packingAreaHeight` - and every column of the area lies in exactly one
breakpoint's span; moreover `integrateRectangle` preserves well-formedness
in all of its branches, for every well-formed input profile. -/
theorem c6_profile_invariant (W H : Nat) (hW : 1 ≤ W)
    (reqs : List (Nat × Nat)) (hreq : ∀ r ∈ reqs, 1 ≤ r.1 ∧ 1 ≤ r.2) :
    (Inv W H (mkPacker W H).heightSlices ∧
     Inv W H (runPacker (mkPacker W H) reqs).1.heightSlices ∧
     (∀ c, c < W →
       ∃! i, i < (runPacker (mkPacker W H) reqs).1.heightSlices.length ∧
         ((runPacker (mkPacker W H) reqs).1.heightSlices.getD i ⟨0, 0⟩).x ≤ c ∧
         c < nextX (runPacker (mkPacker W H) reqs).1.heightSlices W i)) ∧
    (∀ (slices : List Point) (left width bottom : Nat),
      Inv W H slices → 1 ≤ width → left + width ≤ W → bottom ≤ H →
      Inv W H (integrateRectangle W slices left width bottom)) := by
  have h := runPacker_aux W H reqs (mkPacker W H) rfl rfl hreq (inv_mkPacker W H hW)
  refine ⟨⟨inv_mkPacker W H hW, h.2.2, spans_partition W H _ h.2.2⟩, ?_⟩
  intro slices left width bottom hinv hw hlw hbot
  exact integrate_preserves_inv W H slices left width bottom hinv hw hlw hbot

/-- C1 (amended): a successful search result is sound - the rectangle fits
horizontally, its bottom stays strictly below the area height, and no
covered column's height exceeds the returned `y` - and `y` is minimal among
the candidate positions the scan actually evaluates: every breakpoint `q`
that is either the leftmost one or has `q.x + w` strictly inside the area
width and hitting no breakpoint start admits no strictly lower valid `y`.
The original claim's unrestricted minimality over all valid positions is
refuted by `c1_counterexample`. -/
theorem c1_search_soundness_and_scan_minimality
    (p : CygonRectanglePacker) (w h : Nat) (pt : Point)
    (p' : CygonRectanglePacker)
    (hInv : Inv p.packingAreaWidth p.packingAreaHeight p.heightSlices)
    (hw1 : 1 ≤ w)
    (hTP : TryPack p w h = (some pt, p')) :
    (pt.x + w ≤ p.packingAreaWidth ∧ pt.y + h < p.packingAreaHeight ∧
      (∀ c, pt.x ≤ c → c < pt.x + w →
        profileHeight p.heightSlices c ≤ pt.y)) ∧
    (∀ q ∈ p.heightSlices,
      (q.x = 0 ∨ (q.x + w < p.packingAreaWidth ∧
        ∀ r ∈ p.heightSlices, r.x ≠ q.x + w)) →
      ∀ y', y' + h < p.packingAreaHeight →
        (∀ c, q.x ≤ c → c < q.x + w →
          profileHeight p.heightSlices c ≤ y') →
        pt.y ≤ y') := by
  obtain ⟨hpW, hpH, hInv2, hxw, hyh, hbelow, hph⟩ := TryPack_step p w h pt p' hInv hw1 hTP
  refine ⟨⟨hxw, hyh, hbelow⟩, ?_⟩
  obtain ⟨hne, hhead, hsort, hWH⟩ := hInv
  obtain ⟨hwle, hhle, hfind, hp'⟩ := TryPack_some p w h pt p' hTP
  obtain ⟨i, hstop, hilen, hptx, hpty, hcand, hmin, hfirst⟩ :=
    tryFind_success p w h pt hsort (fun q hq => (hWH q hq).1) hne hwle hfind
  intro q hq hqside y' hy'h hy'cover
  obtain ⟨j, hjlen, hjq⟩ := List.mem_iff_getElem.1 hq
  have hjq' : p.heightSlices.getD j ⟨0, 0⟩ = q := by
    rw [getD_eq_getElem _ _ _ hjlen, hjq]
  have hjside : j = 0 ∨
      (p.heightSlices.getD j ⟨0, 0⟩).x + w < p.packingAreaWidth := by
    rcases hqside with h0 | ⟨hlt, _⟩
    · left
      by_contra hj0
      have h01 : (p.heightSlices.getD 0 ⟨0, 0⟩).x <
          (p.heightSlices.getD j ⟨0, 0⟩).x :=
        sorted_getD_lt p.heightSlices hsort 0 j ⟨0, 0⟩ (by omega) hjlen
      rw [getD_zero_headD, hhead, hjq'] at h01
      omega
    · right
      rw [hjq']
      exact hlt
  have hjstop : j < stopIdx p.packingAreaWidth p.heightSlices w :=
    stopIdx_gt p.packingAreaWidth p.heightSlices w hsort j hjlen hjside
  have hjexact : candVal p.heightSlices w j ≤ y' := by
    apply candVal_exact p.heightSlices w j hsort hhead hjlen hw1
    · rcases hqside with h0 | ⟨_, hnone⟩
      · left
        by_contra hj0
        have h01 : (p.heightSlices.getD 0 ⟨0, 0⟩).x <
            (p.heightSlices.getD j ⟨0, 0⟩).x :=
          sorted_getD_lt p.heightSlices hsort 0 j ⟨0, 0⟩ (by omega) hjlen
        rw [getD_zero_headD, hhead, hjq'] at h01
        omega
      · right
        rw [hjq']
        exact hnone
    · intro c hc1 hc2
      rw [hjq'] at hc1 hc2
      exact hy'cover c hc1 hc2
  have hjH : candVal p.heightSlices w j + h < p.packingAreaHeight := by omega
  have := hmin j hjstop hjH
  omega

/-- Counterexample to C1 as stated: on the reachable 6x11 profile
`[(0,9), (2,1), (4,0)]` (obtained by packing (2,9) then (2,1) into a fresh
6x11 packer), `TryPack 2 8` returns `(2, 1)` although placing the rectangle
at `x = 4` would be valid with `y = 0 < 1`: the span `[4, 6)` stays inside
the area, `0 + 8 < 11`, and no column under the span exceeds height `0`.
The search skips the candidate at `x = 4` because its right end would land
exactly on the area width. -/
theorem c1_counterexample :
    (runPacker (mkPacker 6 11) [(2, 9), (2, 1)]).1 =
      ⟨6, 11, [⟨0, 9⟩, ⟨2, 1⟩, ⟨4, 0⟩]⟩ ∧
    (TryPack (⟨6, 11, [⟨0, 9⟩, ⟨2, 1⟩, ⟨4, 0⟩]⟩ : CygonRectanglePacker) 2 8).1 =
      some ⟨2, 1⟩ ∧
    4 + 2 ≤ 6 ∧ 0 + 8 < 11 ∧
    (∀ c, c < 4 + 2 → 4 ≤ c →
      profileHeight [⟨0, 9⟩, ⟨2, 1⟩, ⟨4, 0⟩] c ≤ 0) ∧
    0 < 1 := by
  refine ⟨?_, ?_, by omega, by omega, ?_, by omega⟩
  · simp [runPacker, TryPack, tryFindBestPlacement, findLoop, advanceRight,
      highestIn, bisectLeft, integrateRectangle, binary_search, mkPacker]
  · simp [TryPack, tryFindBestPlacement, findLoop, advanceRight, highestIn,
      bisectLeft, integrateRectangle, binary_search, mkPacker]
  · decide

theorem c1_search_soundness_and_scan_minimality_witness :
    (((Point.mk 0 0).x + 2 ≤ (mkPacker 4 4).packingAreaWidth ∧
      (Point.mk 0 0).y + 2 < (mkPacker 4 4).packingAreaHeight ∧
      (∀ c, (Point.mk 0 0).x ≤ c → c < (Point.mk 0 0).x + 2 →
        profileHeight (mkPacker 4 4).heightSlices c ≤ (Point.mk 0 0).y)) ∧
    (∀ q ∈ (mkPacker 4 4).heightSlices,
      (q.x = 0 ∨ (q.x + 2 < (mkPacker 4 4).packingAreaWidth ∧
        ∀ r ∈ (mkPacker 4 4).heightSlices, r.x ≠ q.x + 2)) →
      ∀ y', y' + 2 < (mkPacker 4 4).packingAreaHeight →
        (∀ c, q.x ≤ c → c < q.x + 2 →
          profileHeight (mkPacker 4 4).heightSlices c ≤ y') →
        (Point.mk 0 0).y ≤ y')) :=
  c1_search_soundness_and_scan_minimality (mkPacker 4 4) 2 2 ⟨0, 0⟩
    ⟨4, 4, [⟨0, 2⟩, ⟨2, 0⟩]⟩ (inv_mkPacker 4 4 (by omega)) (by omega)
    (by simp [TryPack, tryFindBestPlacement, findLoop, advanceRight,
      highestIn, bisectLeft, integrateRectangle, binary_search, mkPacker])

theorem c6_profile_invariant_witness :
    (Inv 10 10 (mkPacker 10 10).heightSlices ∧
     Inv 10 10 (runPacker (mkPacker 10 10) [(4, 3)]).1.heightSlices ∧
     (∀ c, c < 10 →
       ∃! i, i < (runPacker (mkPacker 10 10) [(4, 3)]).1.heightSlices.length ∧
         ((runPacker (mkPacker 10 10) [(4, 3)]).1.heightSlices.getD i
           ⟨0, 0⟩).x ≤ c ∧
         c < nextX (runPacker (mkPacker 10 10) [(4, 3)]).1.heightSlices 10 i)) ∧
    (∀ (slices : List Point) (left width bottom : Nat),
      Inv 10 10 slices → 1 ≤ width → left + width ≤ 10 → bottom ≤ 10 →
      Inv 10 10 (integrateRectangle 10 slices left width bottom)) :=
  c6_profile_invariant 10 10 (by omega) [(4, 3)] (by decide)

theorem c7_bottom_strictly_below_witness :
    (Point.mk 0 0).y + 5 < (mkPacker 10 10).packingAreaHeight :=
  c7_bottom_strictly_below (mkPacker 10 10) 10 5 ⟨0, 0⟩
    ⟨10, 10, [⟨0, 5⟩]⟩
    (by simp [TryPack, tryFindBestPlacement, findLoop, advanceRight,
      highestIn, bisectLeft, integrateRectangle, binary_search, mkPacker])

theorem c10_placement_x_is_breakpoint_witness :
    (∃ q ∈ (mkPacker 10 10).heightSlices, (Point.mk 0 0).x = q.x) ∧
    Point.mk 0 0 = (⟨0, 0⟩ : Point) :=
  ⟨c10_placement_x_is_breakpoint.1 (mkPacker 10 10) 10 5 ⟨0, 0⟩
      ⟨10, 10, [⟨0, 5⟩]⟩ (by simp [mkPacker])
      (by simp [TryPack, tryFindBestPlacement, findLoop, advanceRight,
        highestIn, bisectLeft, integrateRectangle, binary_search, mkPacker]),
   c10_placement_x_is_breakpoint.2 10 10 10 5 ⟨0, 0⟩ ⟨10, 10, [⟨0, 5⟩]⟩
      (by simp [TryPack, tryFindBestPlacement, findLoop, advanceRight,
        highestIn, bisectLeft, integrateRectangle, binary_search, mkPacker])⟩

end GimpAtlas
